import Mathlib

/-
Shallow embedding of the CSP solver in src/Solver.py.

Python dictionaries are modelled as insertion-ordered association lists:
lookup returns the value of the first matching key, update replaces the
value in place, and a fresh key is appended at the end, exactly as a
Python dict (3.7+) behaves.  A Python KeyError is modelled by Option:
none stands for the raised exception.
-/

namespace CSP

set_option linter.unusedSectionVars false
set_option linter.unusedVariables false

variable {V D : Type} [DecidableEq V] [DecidableEq D]

/-- Lookup of a key in a Python-style dict (first matching entry). -/
def dictFind? {B : Type} : List (V × B) → V → Option B
  | [], _ => none
  | p :: rest, k => if p.1 = k then some p.2 else dictFind? rest k

/-- Update of a Python-style dict: replace the value in place when the key
is present, append a new entry otherwise. -/
def dictSet {B : Type} : List (V × B) → V → B → List (V × B)
  | [], k, v => [(k, v)]
  | p :: rest, k, v => if p.1 = k then (k, v) :: rest else p :: dictSet rest k v

/-- Keys of a Python-style dict, in insertion order. -/
def dictKeys {B : Type} (l : List (V × B)) : List V := l.map Prod.fst

/-- State of the solver object in src/Solver.py: the Constraint Store
(variables, domains, constraints) plus the two instrumentation counters. -/
structure Solver (V D : Type) where
  «variables» : List V
  domains : List (V × List D)
  constraints : List (V × List (V × List (D × D)))
  numCalls : Nat
  numFailures : Nat
deriving DecidableEq, Repr

/-- Initial solver state built by the constructor of the Solver class. -/
def Solver.init (V D : Type) : Solver V D :=
  { «variables» := [], domains := [], constraints := [], numCalls := 0, numFailures := 0 }

/-- Method add_variable of Solver: append the name to the variable list,
record the domain, and give the variable an empty inner constraint dict. -/
def add_variable (s : Solver V D) (name : V) (domain : List D) : Solver V D :=
  { s with
    «variables» := s.variables ++ [name]
    domains := dictSet s.domains name domain
    constraints := dictSet s.constraints name [] }

/-- Static method get_all_possible_pairs: the cross product of two lists in
the order produced by itertools.product (the iterator is materialised at its
only consumers, so a list is a faithful model). -/
def get_all_possible_pairs {A B : Type} (a : List A) (b : List B) : List (A × B) :=
  a.flatMap (fun x => b.map (fun y => (x, y)))

/-- Method get_all_arcs: every pair (i, j) present in the constraint table,
outer keys first, in insertion order. -/
def get_all_arcs (s : Solver V D) : List (V × V) :=
  s.constraints.flatMap (fun p => p.2.map (fun q => (p.1, q.1)))

/-- Method get_all_neighboring_arcs: the list of pairs (i, var) for i
ranging over the keys of constraints[var]; none models the KeyError raised
when var has no entry in the constraint table. -/
def get_all_neighboring_arcs (s : Solver V D) (var : V) : Option (List (V × V)) :=
  (dictFind? s.constraints var).map (fun inner => inner.map (fun p => (p.1, var)))

/-- Method add_constraint_one_way: on a fresh ordered pair, store the cross
product of the two current domains filtered by the predicate; on a pair seen
before, filter the stored pair list by the predicate.  none models the
KeyError raised when i is not in the constraint table or a domain lookup
fails. -/
def add_constraint_one_way (s : Solver V D) (i j : V) (ff : D → D → Bool) :
    Option (Solver V D) := do
  let ci ← dictFind? s.constraints i
  let base ←
    match dictFind? ci j with
    | some existing => some existing
    | none => do
        let di ← dictFind? s.domains i
        let dj ← dictFind? s.domains j
        some (get_all_possible_pairs di dj)
  let filtered := base.filter (fun vp => ff vp.1 vp.2)
  some { s with constraints := dictSet s.constraints i (dictSet ci j filtered) }

/-- Loop of add_all_different_constraint over the remaining ordered pairs. -/
def add_all_different_loop (s : Solver V D) : List (V × V) → Option (Solver V D)
  | [] => some s
  | (i, j) :: rest =>
    if i ≠ j then do
      let s1 ← add_constraint_one_way s i j (fun x y => decide (x ≠ y))
      add_all_different_loop s1 rest
    else add_all_different_loop s rest

/-- Method add_all_different_constraint: one inequality constraint for every
ordered pair of distinct entries of var_list. -/
def add_all_different_constraint (s : Solver V D) (var_list : List V) : Option (Solver V D) :=
  add_all_different_loop s (get_all_possible_pairs var_list var_list)

/-- Method revised: the Python loop collects every x in Di that has no
support y in Dj with (x, y) in the stored pair list, then removes each
collected occurrence from Di with list.remove; since support depends only on
the value of x, the net effect on Di is the filter below.  The flag is true
exactly when some value was collected.  none models the KeyError of one of
the three dictionary lookups. -/
def revised (s : Solver V D) (assignment : List (V × List D)) (Xi Xj : V) :
    Option (Bool × List (V × List D)) :=
  match dictFind? s.constraints Xi with
  | none => none
  | some ci =>
    match dictFind? ci Xj with
    | none => none
    | some cXiXj =>
      match dictFind? assignment Xi, dictFind? assignment Xj with
      | some di, some dj =>
          let keep := fun x => dj.any (fun y => decide ((x, y) ∈ cXiXj))
          some (di.any (fun x => ! keep x), dictSet assignment Xi (di.filter keep))
      | _, _ => none

/-- Total number of candidate values over all entries of an assignment. -/
def totalSize (a : List (V × List D)) : Nat := (a.map (fun p => p.2.length)).sum

theorem dictKeys_cons {B : Type} (p : V × B) (rest : List (V × B)) :
    dictKeys (p :: rest) = p.1 :: dictKeys rest := rfl

theorem dictFind?_isSome_iff_mem {B : Type} (l : List (V × B)) (k : V) :
    (dictFind? l k).isSome = true ↔ k ∈ dictKeys l := by
  induction l with
  | nil => simp [dictFind?, dictKeys]
  | cons p rest ih =>
    by_cases h : p.1 = k
    · simp [dictFind?, dictKeys_cons, h]
    · have h2 : k ≠ p.1 := fun hh => h hh.symm
      simp [dictFind?, dictKeys_cons, h, h2, ih]

theorem dictFind?_mem {B : Type} {l : List (V × B)} {k : V} {v : B}
    (h : dictFind? l k = some v) : (k, v) ∈ l := by
  induction l with
  | nil => simp [dictFind?] at h
  | cons p rest ih =>
    obtain ⟨a, b⟩ := p
    by_cases hp : a = k
    · subst hp
      simp [dictFind?] at h
      subst h
      exact List.mem_cons_self _ _
    · simp [dictFind?, hp] at h
      exact List.mem_cons_of_mem _ (ih h)

theorem dictFind?_dictSet_self {B : Type} (l : List (V × B)) (k : V) (v : B) :
    dictFind? (dictSet l k v) k = some v := by
  induction l with
  | nil => simp [dictSet, dictFind?]
  | cons p rest ih =>
    by_cases hp : p.1 = k <;> simp [dictSet, dictFind?, hp, ih]

theorem dictFind?_dictSet_ne {B : Type} (l : List (V × B)) (k k2 : V) (v : B)
    (h : k ≠ k2) : dictFind? (dictSet l k v) k2 = dictFind? l k2 := by
  induction l with
  | nil => simp [dictSet, dictFind?, h]
  | cons p rest ih =>
    by_cases hp : p.1 = k
    · simp [dictSet, dictFind?, hp, h]
    · by_cases hp2 : p.1 = k2 <;>
        simp [dictSet, dictFind?, hp, hp2, Ne.symm h, ih]

theorem dictSet_cancel {B : Type} {l : List (V × B)} {k : V} {v : B}
    (h : dictFind? l k = some v) : dictSet l k v = l := by
  induction l with
  | nil => simp [dictFind?] at h
  | cons p rest ih =>
    by_cases hp : p.1 = k
    · obtain ⟨a, b⟩ := p
      simp only at hp
      subst hp
      simp [dictFind?] at h
      simp [dictSet, h]
    · simp [dictFind?, hp] at h
      simp [dictSet, hp, ih h]

theorem dictKeys_dictSet_of_mem {B : Type} {l : List (V × B)} {k : V} (v : B)
    (h : k ∈ dictKeys l) : dictKeys (dictSet l k v) = dictKeys l := by
  induction l with
  | nil => simp [dictKeys] at h
  | cons p rest ih =>
    by_cases hp : p.1 = k
    · simp [dictSet, dictKeys_cons, hp]
    · have h1 : k ∈ dictKeys rest := by
        rcases List.mem_cons.mp (show k ∈ p.1 :: dictKeys rest from h) with h2 | h2
        · exact absurd h2.symm hp
        · exact h2
      calc dictKeys (dictSet (p :: rest) k v)
          = p.1 :: dictKeys (dictSet rest k v) := by simp [dictSet, hp, dictKeys_cons]
        _ = p.1 :: dictKeys rest := by rw [ih h1]
        _ = dictKeys (p :: rest) := rfl

theorem totalSize_dictSet_lt {a : List (V × List D)} {k : V} {old new : List D}
    (hf : dictFind? a k = some old) (hlt : new.length < old.length) :
    totalSize (dictSet a k new) < totalSize a := by
  induction a with
  | nil => simp [dictFind?] at hf
  | cons p rest ih =>
    by_cases hp : p.1 = k
    · simp [dictFind?, hp] at hf
      subst hf
      simp [dictSet, hp, totalSize]
      omega
    · simp [dictFind?, hp] at hf
      have := ih hf
      simp [dictSet, hp, totalSize] at *
      omega

theorem length_filter_lt_of_any {l : List D} {p : D → Bool}
    (h : l.any (fun x => ! p x) = true) : (l.filter p).length < l.length := by
  induction l with
  | nil => simp at h
  | cons x rest ih =>
    by_cases hx : p x
    · simp [hx] at h
      have := ih (by simpa using h)
      simp [List.filter, hx]
      omega
    · have : (rest.filter p).length ≤ rest.length := List.length_filter_le _ _
      simp [List.filter, hx, Bool.false_eq_true]
      omega

theorem filter_eq_self_of_all {l : List D} {p : D → Bool}
    (h : l.any (fun x => ! p x) = false) : l.filter p = l := by
  induction l with
  | nil => rfl
  | cons x rest ih =>
    simp only [List.any_cons, Bool.or_eq_false_iff] at h
    obtain ⟨h1, h2⟩ := h
    have hx : p x = true := by
      cases hpx : p x
      · rw [hpx] at h1
        simp at h1
      · rfl
    simp [List.filter_cons, hx, ih h2]

theorem revised_false_eq {s : Solver V D} {a a1 : List (V × List D)} {Xi Xj : V}
    (h : revised s a Xi Xj = some (false, a1)) : a1 = a := by
  unfold revised at h
  rcases hc : dictFind? s.constraints Xi with _ | ci
  · simp [hc] at h
  rcases hcj : dictFind? ci Xj with _ | cXiXj
  · simp [hc, hcj] at h
  rcases hdi : dictFind? a Xi with _ | di
  · simp [hc, hcj, hdi] at h
  rcases hdj : dictFind? a Xj with _ | dj
  · simp [hc, hcj, hdi, hdj] at h
  simp [hc, hcj, hdi, hdj] at h
  obtain ⟨hflag, ha⟩ := h
  rw [← ha, filter_eq_self_of_all (by simpa using hflag)]
  exact dictSet_cancel hdi

theorem revised_true_size {s : Solver V D} {a a1 : List (V × List D)} {Xi Xj : V}
    (h : revised s a Xi Xj = some (true, a1)) : totalSize a1 < totalSize a := by
  unfold revised at h
  rcases hc : dictFind? s.constraints Xi with _ | ci
  · simp [hc] at h
  rcases hcj : dictFind? ci Xj with _ | cXiXj
  · simp [hc, hcj] at h
  rcases hdi : dictFind? a Xi with _ | di
  · simp [hc, hcj, hdi] at h
  rcases hdj : dictFind? a Xj with _ | dj
  · simp [hc, hcj, hdi, hdj] at h
  simp [hc, hcj, hdi, hdj] at h
  obtain ⟨hflag, ha⟩ := h
  rw [← ha]
  exact totalSize_dictSet_lt hdi (length_filter_lt_of_any (by simpa using hflag))

/-- Method ac3_inference: the worklist loop of AC-3.  The Python queue is a
list popped from the end (a LIFO stack); the model keeps the list in the
same order and pops with getLast.  Recursion is well founded because a
revision that removed a value shrinks the total domain size and otherwise
the queue shrinks. -/
def ac3_inference (s : Solver V D) (assignment : List (V × List D))
    (queue : List (V × V)) : Option (Bool × List (V × List D)) :=
  match hq : queue.getLast? with
  | none => some (true, assignment)
  | some (Xi, Xj) =>
    match hr : revised s assignment Xi Xj with
    | none => none
    | some (flag, a1) =>
      if hflag : flag then
        match dictFind? a1 Xi with
        | none => none
        | some di1 =>
          if di1.length = 0 then some (false, a1)
          else
            match get_all_neighboring_arcs s Xi with
            | none => none
            | some nbrs =>
              ac3_inference s a1
                (queue.dropLast ++
                  nbrs.filter (fun arc => decide (Xj ≠ arc.1 ∧ Xj ≠ arc.2)))
      else ac3_inference s a1 queue.dropLast
termination_by (totalSize assignment, queue.length)
decreasing_by
  · apply Prod.Lex.left
    exact revised_true_size (by rw [hflag] at hr; exact hr)
  · have hfl : flag = false := by
      cases flag
      · rfl
      · exact absurd rfl hflag
    have heq : a1 = assignment :=
      revised_false_eq (show revised s assignment Xi Xj = some (false, a1) by
        rw [hfl] at hr; exact hr)
    rw [heq]
    apply Prod.Lex.right
    have hne : queue ≠ [] := by
      intro hnil
      rw [hnil] at hq
      simp at hq
    have hpos : 0 < queue.length := List.length_pos.mpr hne
    simp only [List.length_dropLast]
    omega


/-- Static method selectUnassignedVariableFrom: the first variable in
insertion order whose list of values has length greater than one; none when
there is no such variable (the implicit Python None). -/
def selectUnassignedVariableFrom : List (V × List D) → Option V
  | [] => none
  | p :: rest => if 1 < p.2.length then some p.1 else selectUnassignedVariableFrom rest

/-- Static method isConsistent: the always-true extension point. -/
def isConsistent (Xi : V) (Di : D) (assignment : List (V × List D)) : Bool := true

/-- Static method hasCompletedThe: every variable holds exactly one value. -/
def hasCompletedThe (assignment : List (V × List D)) : Bool :=
  assignment.all (fun p => p.2.length == 1)

/-- Outcome of a call to backtrack or backtracking_search: a normal return
carrying the solver with its updated counters and the returned assignment
or None, a raised KeyError, or exhaustion of the fuel that drives the
recursion (shown below to be unreachable for sufficient fuel). -/
inductive SearchOut (V D : Type) where
  | ok (s : Solver V D) (result : Option (List (V × List D)))
  | keyError
  | fuelOut
deriving DecidableEq, Repr

/-- Loop of backtrack over the candidate values of the selected variable:
pin the variable to the candidate in a copy, run AC-3 over the full arc set,
recurse through bk on success, and fall through to the next candidate when
the branch fails. -/
def backtrackLoop (bk : Solver V D → List (V × List D) → SearchOut V D)
    (s : Solver V D) (a : List (V × List D)) (Xi : V) : List D → SearchOut V D
  | [] => .ok s none
  | di :: rest =>
    if isConsistent Xi di a then
      match ac3_inference s (dictSet a Xi [di]) (get_all_arcs s) with
      | none => .keyError
      | some (false, _) => backtrackLoop bk s a Xi rest
      | some (true, a2) =>
        match bk s a2 with
        | .ok s2 (some r) => .ok s2 (some r)
        | .ok s2 none => backtrackLoop bk s2 a Xi rest
        | .keyError => .keyError
        | .fuelOut => .fuelOut
    else backtrackLoop bk s a Xi rest

/-- Method backtrack: increment the call counter, return the assignment when
complete, otherwise select a variable and loop over its candidates; a fully
exhausted loop increments the failure counter and returns None.  A none from
selectUnassignedVariableFrom makes Python look up assignment[None], which
raises KeyError.  The Nat argument is fuel for the recursion. -/
def backtrack : Nat → Solver V D → List (V × List D) → SearchOut V D
  | 0, _, _ => .fuelOut
  | fuel + 1, s, a =>
    let s1 := { s with numCalls := s.numCalls + 1 }
    if hasCompletedThe a then .ok s1 (some a)
    else
      match selectUnassignedVariableFrom a with
      | none => .keyError
      | some Xi =>
        match dictFind? a Xi with
        | none => .keyError
        | some di =>
          match backtrackLoop (backtrack fuel) s1 a Xi di with
          | .ok s2 none => .ok { s2 with numFailures := s2.numFailures + 1 } none
          | r => r

/-- Number of variables whose domain holds more than one value; the measure
that bounds the recursion depth of backtrack. -/
def unassignedCount (a : List (V × List D)) : Nat :=
  a.countP (fun p => decide (1 < p.2.length))

/-- Method backtracking_search: deep copy the domains, run a global AC-3
pass whose boolean result is discarded (the pruned assignment is kept), and
hand the assignment to backtrack.  The fuel unassignedCount + 1 is shown
sufficient below. -/
def backtracking_search (s : Solver V D) : SearchOut V D :=
  match ac3_inference s s.domains (get_all_arcs s) with
  | none => .keyError
  | some (_, a1) => backtrack (unassignedCount a1 + 1) s a1

/-- Domain of a variable in an assignment, empty when the variable is
absent. -/
def domOf (a : List (V × List D)) (v : V) : List D := (dictFind? a v).getD []

/-- Stored allowed pair list of the registered arc (i, j), empty when the
arc is not registered. -/
def pairsOf (s : Solver V D) (i j : V) : List (D × D) :=
  match dictFind? s.constraints i with
  | some ci => (dictFind? ci j).getD []
  | none => []

/-- Boolean test for the presence of a constraint from i to j. -/
def registeredB (s : Solver V D) (i j : V) : Bool :=
  match dictFind? s.constraints i with
  | some ci => (dictFind? ci j).isSome
  | none => false

/-- Arc consistency of a single arc: every remaining value of i has a
support in the domain of j under the stored pairs for (i, j). -/
def ConsistentArc (s : Solver V D) (a : List (V × List D)) (i j : V) : Prop :=
  ∀ x ∈ domOf a i, ∃ y ∈ domOf a j, (x, y) ∈ pairsOf s i j

instance (s : Solver V D) (a : List (V × List D)) (i j : V) :
    Decidable (ConsistentArc s a i j) := by
  unfold ConsistentArc
  infer_instance

/-- Arc consistency of an assignment with respect to every registered arc. -/
def ArcConsistent (s : Solver V D) (a : List (V × List D)) : Prop :=
  ∀ arc ∈ get_all_arcs s, ConsistentArc s a arc.1 arc.2

instance (s : Solver V D) (a : List (V × List D)) : Decidable (ArcConsistent s a) := by
  unfold ArcConsistent
  infer_instance

/-- Two-way connection discipline demanded by the documentation of
add_constraint_one_way: every registered arc joins two distinct variables,
its reverse is registered too, and the two stored pair lists mirror each
other. -/
def SymStore (s : Solver V D) : Prop :=
  ∀ arc ∈ get_all_arcs s, arc.1 ≠ arc.2 ∧ registeredB s arc.2 arc.1 = true ∧
    ∀ p ∈ pairsOf s arc.1 arc.2, (p.2, p.1) ∈ pairsOf s arc.2 arc.1

instance (s : Solver V D) : Decidable (SymStore s) := by
  unfold SymStore
  infer_instance

/-- Outer keys of the constraint table hold no duplicates; automatic for
every store built through add_variable. -/
def StoreNodup (s : Solver V D) : Prop := (dictKeys s.constraints).Nodup

instance (s : Solver V D) : Decidable (StoreNodup s) := by
  unfold StoreNodup
  infer_instance

theorem registeredB_mem_arcs {s : Solver V D} {i j : V}
    (h : registeredB s i j = true) : (i, j) ∈ get_all_arcs s := by
  unfold registeredB at h
  rcases hc : dictFind? s.constraints i with _ | ci
  · rw [hc] at h
    simp at h
  rw [hc] at h
  have hmem : (i, ci) ∈ s.constraints := dictFind?_mem hc
  have hj : j ∈ dictKeys ci := (dictFind?_isSome_iff_mem ci j).mp h
  unfold get_all_arcs
  rcases List.mem_map.mp hj with ⟨pr, hpr, hfst⟩
  exact List.mem_flatMap.mpr ⟨(i, ci), hmem, List.mem_map.mpr ⟨pr, hpr, by simp [hfst]⟩⟩

theorem dictFind?_of_mem_nodup {B : Type} {l : List (V × B)} {p : V × B}
    (hnd : (dictKeys l).Nodup) (hp : p ∈ l) : dictFind? l p.1 = some p.2 := by
  induction l with
  | nil => cases hp
  | cons e rest ih =>
    rw [dictKeys_cons] at hnd
    rcases List.mem_cons.mp hp with h1 | h1
    · subst h1
      simp [dictFind?]
    · have hne : e.1 ≠ p.1 := by
        intro hcontra
        exact (List.nodup_cons.mp hnd).1 (hcontra ▸ List.mem_map.mpr ⟨p, h1, rfl⟩)
      simp only [dictFind?, if_neg hne]
      exact ih (List.nodup_cons.mp hnd).2 h1

theorem mem_arcs_registeredB {s : Solver V D} {i j : V} (hnd : StoreNodup s)
    (h : (i, j) ∈ get_all_arcs s) : registeredB s i j = true := by
  unfold get_all_arcs at h
  rcases List.mem_flatMap.mp h with ⟨p, hp, hmem⟩
  rcases List.mem_map.mp hmem with ⟨q, hq, heq⟩
  have hi : p.1 = i := congrArg Prod.fst heq
  have hj : q.1 = j := congrArg Prod.snd heq
  have hfind : dictFind? s.constraints i = some p.2 := by
    rw [← hi]
    exact dictFind?_of_mem_nodup hnd hp
  unfold registeredB
  rw [hfind]
  have : j ∈ dictKeys p.2 := hj ▸ List.mem_map.mpr ⟨q, hq, rfl⟩
  exact (dictFind?_isSome_iff_mem p.2 j).mpr this

/-- Elimination form for a successful call to revised: all four lookups
succeeded and the result is the filtered update with its removal flag. -/
theorem revised_some_elim {s : Solver V D} {a a1 : List (V × List D)} {Xi Xj : V}
    {flag : Bool} (h : revised s a Xi Xj = some (flag, a1)) :
    ∃ ci cXiXj di dj, dictFind? s.constraints Xi = some ci ∧
      dictFind? ci Xj = some cXiXj ∧
      dictFind? a Xi = some di ∧ dictFind? a Xj = some dj ∧
      a1 = dictSet a Xi
        (di.filter (fun x => dj.any (fun y => decide ((x, y) ∈ cXiXj)))) ∧
      flag = di.any (fun x => ! dj.any (fun y => decide ((x, y) ∈ cXiXj))) := by
  unfold revised at h
  rcases hc : dictFind? s.constraints Xi with _ | ci
  · simp [hc] at h
  rcases hcj : dictFind? ci Xj with _ | cXiXj
  · simp [hc, hcj] at h
  rcases hdi : dictFind? a Xi with _ | di
  · simp [hc, hcj, hdi] at h
  rcases hdj : dictFind? a Xj with _ | dj
  · simp [hc, hcj, hdi, hdj] at h
  simp only [hc, hcj, hdi, hdj, Option.some_inj, Prod.mk.injEq] at h
  obtain ⟨h1, h2⟩ := h
  exact ⟨ci, cXiXj, di, dj, rfl, hcj, rfl, rfl, h2.symm, h1.symm⟩

/-- Entrywise refinement between two assignments: the same variables in the
same order, with each domain a sublist of the corresponding one. -/
def SpineLe (a2 a : List (V × List D)) : Prop :=
  List.Forall₂ (fun q p => q.1 = p.1 ∧ List.Sublist q.2 p.2) a2 a

theorem SpineLe.refl (a : List (V × List D)) : SpineLe a a := by
  induction a with
  | nil => exact List.Forall₂.nil
  | cons p rest ih => exact List.Forall₂.cons ⟨rfl, List.Sublist.refl _⟩ ih

theorem SpineLe.trans {a3 a2 a : List (V × List D)}
    (h1 : SpineLe a3 a2) (h2 : SpineLe a2 a) : SpineLe a3 a := by
  induction h1 generalizing a with
  | nil =>
    cases h2
    exact List.Forall₂.nil
  | cons hpq hrest ih =>
    cases h2 with
    | cons hqr hrest2 =>
      exact List.Forall₂.cons ⟨hpq.1.trans hqr.1, hpq.2.trans hqr.2⟩ (ih hrest2)

theorem SpineLe.dictSet {a : List (V × List D)} {k : V} {old new : List D}
    (hf : dictFind? a k = some old) (hsub : List.Sublist new old) :
    SpineLe (dictSet a k new) a := by
  induction a with
  | nil => simp [dictFind?] at hf
  | cons p rest ih =>
    by_cases hp : p.1 = k
    · simp [dictFind?, hp] at hf
      subst hf
      simp only [CSP.dictSet, hp, if_pos rfl]
      exact List.Forall₂.cons ⟨hp.symm, hsub⟩ (SpineLe.refl rest)
    · simp [dictFind?, hp] at hf
      simp only [CSP.dictSet, if_neg hp]
      exact List.Forall₂.cons ⟨rfl, List.Sublist.refl _⟩ (ih hf)
theorem ac3_eq_done (s : Solver V D) {a : List (V × List D)} {q : List (V × V)}
    (hq : q.getLast? = none) : ac3_inference s a q = some (true, a) := by
  rw [ac3_inference.eq_def, hq]

theorem ac3_eq_skip (s : Solver V D) {a a1 : List (V × List D)} {q : List (V × V)}
    {Xi Xj : V} (hq : q.getLast? = some (Xi, Xj))
    (hr : revised s a Xi Xj = some (false, a1)) :
    ac3_inference s a q = ac3_inference s a1 q.dropLast := by
  rw [ac3_inference.eq_def, hq]
  split
  · next heq => cases heq
  · next Xi2 Xj2 heq =>
    injection heq with h
    injection h with hXi hXj
    subst hXi
    subst hXj
    split
    · next heq2 => rw [hr] at heq2; cases heq2
    · next flag a3 heq2 =>
      rw [hr] at heq2
      injection heq2 with h2
      injection h2 with hf ha
      subst hf
      subst ha
      simp

theorem ac3_eq_crash1 (s : Solver V D) {a : List (V × List D)} {q : List (V × V)}
    {Xi Xj : V} (hq : q.getLast? = some (Xi, Xj))
    (hr : revised s a Xi Xj = none) : ac3_inference s a q = none := by
  rw [ac3_inference.eq_def, hq]
  split
  · next heq => cases heq
  · next Xi2 Xj2 heq =>
    injection heq with h
    injection h with hXi hXj
    subst hXi
    subst hXj
    split
    · rfl
    · next flag a3 heq2 => rw [hr] at heq2; cases heq2

theorem ac3_eq_emptied (s : Solver V D) {a a1 : List (V × List D)} {q : List (V × V)}
    {Xi Xj : V} (hq : q.getLast? = some (Xi, Xj))
    (hr : revised s a Xi Xj = some (true, a1))
    (hfind : dictFind? a1 Xi = some []) :
    ac3_inference s a q = some (false, a1) := by
  rw [ac3_inference.eq_def, hq]
  split
  · next heq => cases heq
  · next Xi2 Xj2 heq =>
    injection heq with h
    injection h with hXi hXj
    subst hXi
    subst hXj
    split
    · next heq2 => rw [hr] at heq2; cases heq2
    · next flag a3 heq2 =>
      rw [hr] at heq2
      injection heq2 with h2
      injection h2 with hf ha
      subst hf
      subst ha
      simp [hfind]

theorem ac3_eq_enqueue (s : Solver V D) {a a1 : List (V × List D)} {q : List (V × V)}
    {Xi Xj : V} {di1 : List D} {nbrs : List (V × V)}
    (hq : q.getLast? = some (Xi, Xj))
    (hr : revised s a Xi Xj = some (true, a1))
    (hfind : dictFind? a1 Xi = some di1) (hlen : di1 ≠ [])
    (hn : get_all_neighboring_arcs s Xi = some nbrs) :
    ac3_inference s a q =
      ac3_inference s a1
        (q.dropLast ++ nbrs.filter (fun arc => decide (Xj ≠ arc.1 ∧ Xj ≠ arc.2))) := by
  rw [ac3_inference.eq_def, hq]
  split
  · next heq => cases heq
  · next Xi2 Xj2 heq =>
    injection heq with h
    injection h with hXi hXj
    subst hXi
    subst hXj
    split
    · next heq2 => rw [hr] at heq2; cases heq2
    · next flag a3 heq2 =>
      rw [hr] at heq2
      injection heq2 with h2
      injection h2 with hf ha
      subst hf
      subst ha
      simp [hfind, hn, List.length_eq_zero, hlen]

theorem revised_find_self {s : Solver V D} {a a1 : List (V × List D)} {Xi Xj : V}
    {flag : Bool} (h : revised s a Xi Xj = some (flag, a1)) :
    ∃ ndi, dictFind? a1 Xi = some ndi := by
  obtain ⟨ci, cXiXj, di, dj, hc, hcj, hdi, hdj, ha1, hflag⟩ := revised_some_elim h
  exact ⟨_, ha1 ▸ dictFind?_dictSet_self a Xi _⟩

theorem revised_nbrs_some {s : Solver V D} {a a1 : List (V × List D)} {Xi Xj : V}
    {flag : Bool} (h : revised s a Xi Xj = some (flag, a1)) :
    ∃ nbrs, get_all_neighboring_arcs s Xi = some nbrs := by
  obtain ⟨ci, cXiXj, di, dj, hc, hcj, hdi, hdj, ha1, hflag⟩ := revised_some_elim h
  exact ⟨_, by unfold get_all_neighboring_arcs; rw [hc]; rfl⟩

theorem revised_spine {s : Solver V D} {a a1 : List (V × List D)} {Xi Xj : V}
    {flag : Bool} (h : revised s a Xi Xj = some (flag, a1)) : SpineLe a1 a := by
  obtain ⟨ci, cXiXj, di, dj, hc, hcj, hdi, hdj, ha1, hflag⟩ := revised_some_elim h
  exact ha1 ▸ SpineLe.dictSet hdi (List.filter_sublist di)

/-- AC-3 only ever narrows the assignment: the result has the same entries
in the same order, each domain a sublist of what it was. -/
theorem ac3_spine {s : Solver V D} (a : List (V × List D)) (q : List (V × V)) :
    ∀ fl a2, ac3_inference s a q = some (fl, a2) → SpineLe a2 a := by
  induction a, q using ac3_inference.induct (s := s) with
  | case1 a q hq =>
    intro fl a2 h
    rw [ac3_eq_done s hq] at h
    injection h with h2
    injection h2 with hf ha
    exact ha ▸ SpineLe.refl a
  | case2 a q Xi Xj hq hr =>
    intro fl a2 h
    rw [ac3_eq_crash1 s hq hr] at h
    cases h
  | case3 a q Xi Xj hq a1 hfind hr =>
    intro fl a2 h
    obtain ⟨ndi, hndi⟩ := revised_find_self hr
    rw [hndi] at hfind
    cases hfind
  | case4 a q Xi Xj hq a1 di1 hfind hlen hr =>
    intro fl a2 h
    rw [ac3_eq_emptied s hq hr (List.length_eq_zero.mp hlen ▸ hfind)] at h
    injection h with h2
    injection h2 with hf ha
    exact ha ▸ revised_spine hr
  | case5 a q Xi Xj hq a1 di1 hfind hlen hn hr =>
    intro fl a2 h
    obtain ⟨nbrs, hnbrs⟩ := revised_nbrs_some hr
    rw [hnbrs] at hn
    cases hn
  | case6 a q Xi Xj hq a1 di1 hfind hlen nbrs hn hr ih =>
    intro fl a2 h
    rw [ac3_eq_enqueue s hq hr hfind (fun hc => hlen (hc ▸ rfl)) hn] at h
    exact (ih fl a2 h).trans (revised_spine hr)
  | case7 a q Xi Xj hq flag a1 hr hflag ih =>
    intro fl a2 h
    have hfl : flag = false := by
      cases flag
      · rfl
      · exact absurd rfl hflag
    subst hfl
    rw [ac3_eq_skip s hq hr] at h
    have heq := revised_false_eq hr
    subst heq
    exact ih fl a2 h

theorem SpineLe.keys {a2 a : List (V × List D)} (h : SpineLe a2 a) :
    dictKeys a2 = dictKeys a := by
  induction h with
  | nil => rfl
  | cons hpq hrest ih =>
    rw [dictKeys_cons, dictKeys_cons, hpq.1, ih]

theorem SpineLe.find_some {a2 a : List (V × List D)} {v : V} {d : List D}
    (h : SpineLe a2 a) (hf : dictFind? a v = some d) :
    ∃ d2, dictFind? a2 v = some d2 ∧ List.Sublist d2 d := by
  induction h with
  | nil => cases hf
  | cons hpq hrest ih =>
    next q p _ _ =>
      by_cases hv : p.1 = v
      · rw [dictFind?, if_pos hv] at hf
        injection hf with hf
        exact ⟨_, by rw [dictFind?, if_pos (hpq.1.trans hv)], hf ▸ hpq.2⟩
      · rw [dictFind?, if_neg hv] at hf
        obtain ⟨d2, hd2, hsub⟩ := ih hf
        refine ⟨d2, ?_, hsub⟩
        rw [dictFind?, if_neg (fun hc => hv (hpq.1.symm.trans hc))]
        exact hd2

theorem SpineLe.find_some_rev {a2 a : List (V × List D)} {v : V} {d2 : List D}
    (h : SpineLe a2 a) (hf : dictFind? a2 v = some d2) :
    ∃ d, dictFind? a v = some d ∧ List.Sublist d2 d := by
  induction h with
  | nil => cases hf
  | cons hpq hrest ih =>
    next q p _ _ =>
      by_cases hv : q.1 = v
      · rw [dictFind?, if_pos hv] at hf
        injection hf with hf
        exact ⟨_, by rw [dictFind?, if_pos (hpq.1 ▸ hv)], hf ▸ hpq.2⟩
      · rw [dictFind?, if_neg hv] at hf
        obtain ⟨d, hd, hsub⟩ := ih hf
        refine ⟨d, ?_, hsub⟩
        rw [dictFind?, if_neg (fun hc => hv (hpq.1.trans hc))]
        exact hd

/-- Variables of the assignment all hold at least one candidate value. -/
def AllNonempty (a : List (V × List D)) : Prop := ∀ p ∈ a, p.2 ≠ []

instance (a : List (V × List D)) : Decidable (AllNonempty a) := by
  unfold AllNonempty
  infer_instance

theorem unassignedCount_le_of_spine {a2 a : List (V × List D)} (h : SpineLe a2 a) :
    unassignedCount a2 ≤ unassignedCount a := by
  induction h with
  | nil => exact Nat.le_refl _
  | cons hpq hrest ih =>
    next q p _ _ =>
      unfold unassignedCount at *
      rw [List.countP_cons, List.countP_cons]
      have hlen := hpq.2.length_le
      by_cases h1 : 1 < q.2.length
      · have h2 : 1 < p.2.length := Nat.lt_of_lt_of_le h1 hlen
        simp [h1, h2]
        omega
      · simp [h1]
        split <;> omega

theorem unassignedCount_dictSet_lt {a : List (V × List D)} {Xi : V} {di : List D}
    (d : D) (hf : dictFind? a Xi = some di) (hlen : 1 < di.length) :
    unassignedCount (dictSet a Xi [d]) < unassignedCount a := by
  induction a with
  | nil => cases hf
  | cons p rest ih =>
    by_cases hp : p.1 = Xi
    · rw [dictFind?, if_pos hp] at hf
      injection hf with hf
      subst hf
      unfold dictSet unassignedCount
      rw [if_pos hp]
      rw [List.countP_cons, List.countP_cons]
      simp [hlen]
    · rw [dictFind?, if_neg hp] at hf
      have := ih hf
      unfold dictSet unassignedCount
      rw [if_neg hp]
      rw [List.countP_cons, List.countP_cons]
      unfold unassignedCount at this
      omega

theorem mem_of_getLast? {A : Type} : ∀ {l : List A} {x : A}, l.getLast? = some x → x ∈ l
  | [], x, h => by cases h
  | [a], x, h => by
      injection h with h
      exact h ▸ List.mem_singleton_self a
  | a :: b :: rest, x, h => by
      rw [List.getLast?_cons_cons] at h
      exact List.mem_cons_of_mem a (mem_of_getLast? h)

theorem queue_decomp {A : Type} {l : List A} {x : A} (h : l.getLast? = some x) :
    l = l.dropLast ++ [x] := by
  have hne : l ≠ [] := by
    intro hnil
    rw [hnil] at h
    cases h
  have h2 := List.dropLast_append_getLast hne
  rw [List.getLast?_eq_getLast l hne] at h
  injection h with h
  rw [h] at h2
  exact h2.symm

theorem mem_dictSet {B : Type} {l : List (V × B)} {k : V} {v : B} :
    ∀ p ∈ dictSet l k v, p ∈ l ∨ p = (k, v) := by
  induction l with
  | nil =>
    intro p hp
    simp [dictSet] at hp
    exact Or.inr hp
  | cons e rest ih =>
    intro p hp
    by_cases he : e.1 = k
    · simp only [dictSet, if_pos he] at hp
      rcases List.mem_cons.mp hp with h1 | h1
      · exact Or.inr h1
      · exact Or.inl (List.mem_cons_of_mem _ h1)
    · simp only [dictSet, if_neg he] at hp
      rcases List.mem_cons.mp hp with h1 | h1
      · exact Or.inl (h1 ▸ List.mem_cons_self _ _)
      · rcases ih p h1 with h2 | h2
        · exact Or.inl (List.mem_cons_of_mem _ h2)
        · exact Or.inr h2

theorem pairsOf_eq {s : Solver V D} {Xi Xj : V} {ci : List (V × List (D × D))}
    {cXiXj : List (D × D)} (hc : dictFind? s.constraints Xi = some ci)
    (hcj : dictFind? ci Xj = some cXiXj) : pairsOf s Xi Xj = cXiXj := by
  simp [pairsOf, hc, hcj]

theorem registeredB_of {s : Solver V D} {Xi Xj : V} {ci : List (V × List (D × D))}
    {cXiXj : List (D × D)} (hc : dictFind? s.constraints Xi = some ci)
    (hcj : dictFind? ci Xj = some cXiXj) : registeredB s Xi Xj = true := by
  simp [registeredB, hc, hcj]

theorem registeredB_elim {s : Solver V D} {Xi Xj : V}
    (h : registeredB s Xi Xj = true) :
    ∃ ci cXiXj, dictFind? s.constraints Xi = some ci ∧ dictFind? ci Xj = some cXiXj := by
  unfold registeredB at h
  rcases hc : dictFind? s.constraints Xi with _ | ci
  · rw [hc] at h
    simp at h
  rw [hc] at h
  simp only [Option.isSome] at h
  rcases hcj : dictFind? ci Xj with _ | cXiXj
  · rw [hcj] at h
    simp at h
  exact ⟨ci, cXiXj, rfl, hcj⟩

theorem revised_total {s : Solver V D} {a : List (V × List D)} {Xi Xj : V}
    (hreg : registeredB s Xi Xj = true)
    (hi : (dictFind? a Xi).isSome = true) (hj : (dictFind? a Xj).isSome = true) :
    (revised s a Xi Xj).isSome = true := by
  obtain ⟨ci, cXiXj, hc, hcj⟩ := registeredB_elim hreg
  rcases hdi : dictFind? a Xi with _ | di
  · rw [hdi] at hi
    cases hi
  rcases hdj : dictFind? a Xj with _ | dj
  · rw [hdj] at hj
    cases hj
  simp [revised, hc, hcj, hdi, hdj]

theorem nbrs_mem {s : Solver V D} {Xi : V} {nbrs : List (V × V)} {arc : V × V}
    (hn : get_all_neighboring_arcs s Xi = some nbrs) (h : arc ∈ nbrs) :
    arc.2 = Xi ∧ registeredB s Xi arc.1 = true := by
  unfold get_all_neighboring_arcs at hn
  rcases hc : dictFind? s.constraints Xi with _ | ci
  · rw [hc] at hn
    cases hn
  rw [hc] at hn
  injection hn with hn
  rw [← hn] at h
  rcases List.mem_map.mp h with ⟨pr, hpr, heq⟩
  constructor
  · rw [← heq]
  · have hk : arc.1 ∈ dictKeys ci := by
      rw [← heq]
      exact List.mem_map.mpr ⟨pr, hpr, rfl⟩
    simp [registeredB, hc]
    exact (dictFind?_isSome_iff_mem ci arc.1).mpr hk

theorem nbrs_mem_of_registered {s : Solver V D} {Xi k : V} {nbrs : List (V × V)}
    (hn : get_all_neighboring_arcs s Xi = some nbrs)
    (hreg : registeredB s Xi k = true) : (k, Xi) ∈ nbrs := by
  obtain ⟨ci, cXiXj, hc, hcj⟩ := registeredB_elim hreg
  unfold get_all_neighboring_arcs at hn
  rw [hc] at hn
  injection hn with hn
  rw [← hn]
  have : (k, cXiXj) ∈ ci := dictFind?_mem hcj
  exact List.mem_map.mpr ⟨(k, cXiXj), this, rfl⟩

/-- When AC-3 answers false, some domain of the result is empty. -/
theorem ac3_false_empty {s : Solver V D} (a : List (V × List D)) (q : List (V × V)) :
    ∀ a2, ac3_inference s a q = some (false, a2) → ∃ v, dictFind? a2 v = some [] := by
  induction a, q using ac3_inference.induct (s := s) with
  | case1 a q hq =>
    intro a2 h
    rw [ac3_eq_done s hq] at h
    injection h with h2
    injection h2 with hf ha
    cases hf
  | case2 a q Xi Xj hq hr =>
    intro a2 h
    rw [ac3_eq_crash1 s hq hr] at h
    cases h
  | case3 a q Xi Xj hq a1 hfind hr =>
    intro a2 h
    obtain ⟨ndi, hndi⟩ := revised_find_self hr
    rw [hndi] at hfind
    cases hfind
  | case4 a q Xi Xj hq a1 di1 hfind hlen hr =>
    intro a2 h
    rw [ac3_eq_emptied s hq hr (List.length_eq_zero.mp hlen ▸ hfind)] at h
    injection h with h2
    injection h2 with hf ha
    exact ⟨Xi, ha ▸ List.length_eq_zero.mp hlen ▸ hfind⟩
  | case5 a q Xi Xj hq a1 di1 hfind hlen hn hr =>
    intro a2 h
    obtain ⟨nbrs, hnbrs⟩ := revised_nbrs_some hr
    rw [hnbrs] at hn
    cases hn
  | case6 a q Xi Xj hq a1 di1 hfind hlen nbrs hn hr ih =>
    intro a2 h
    rw [ac3_eq_enqueue s hq hr hfind (fun hc => hlen (hc ▸ rfl)) hn] at h
    exact ih a2 h
  | case7 a q Xi Xj hq flag a1 hr hflag ih =>
    intro a2 h
    have hfl : flag = false := by
      cases flag
      · rfl
      · exact absurd rfl hflag
    subst hfl
    rw [ac3_eq_skip s hq hr] at h
    exact ih a2 h

/-- When AC-3 answers true from an assignment with nonempty domains, every
domain of the result is still nonempty. -/
theorem ac3_true_nonempty {s : Solver V D} (a : List (V × List D)) (q : List (V × V)) :
    ∀ a2, ac3_inference s a q = some (true, a2) → AllNonempty a → AllNonempty a2 := by
  induction a, q using ac3_inference.induct (s := s) with
  | case1 a q hq =>
    intro a2 h hne
    rw [ac3_eq_done s hq] at h
    injection h with h2
    injection h2 with hf ha
    exact ha ▸ hne
  | case2 a q Xi Xj hq hr =>
    intro a2 h hne
    rw [ac3_eq_crash1 s hq hr] at h
    cases h
  | case3 a q Xi Xj hq a1 hfind hr =>
    intro a2 h hne
    obtain ⟨ndi, hndi⟩ := revised_find_self hr
    rw [hndi] at hfind
    cases hfind
  | case4 a q Xi Xj hq a1 di1 hfind hlen hr =>
    intro a2 h hne
    rw [ac3_eq_emptied s hq hr (List.length_eq_zero.mp hlen ▸ hfind)] at h
    injection h with h2
    injection h2 with hf ha
    cases hf
  | case5 a q Xi Xj hq a1 di1 hfind hlen hn hr =>
    intro a2 h hne
    obtain ⟨nbrs, hnbrs⟩ := revised_nbrs_some hr
    rw [hnbrs] at hn
    cases hn
  | case6 a q Xi Xj hq a1 di1 hfind hlen nbrs hn hr ih =>
    intro a2 h hne
    rw [ac3_eq_enqueue s hq hr hfind (fun hc => hlen (hc ▸ rfl)) hn] at h
    refine ih a2 h ?_
    obtain ⟨ci, cXiXj, di, dj, hc, hcj, hdi, hdj, ha1, hflag⟩ := revised_some_elim hr
    intro p hp
    rcases mem_dictSet p (ha1 ▸ hp) with h1 | h1
    · exact hne p h1
    · have : dictFind? a1 Xi = some (di.filter
          (fun x => dj.any (fun y => decide ((x, y) ∈ cXiXj)))) :=
        ha1 ▸ dictFind?_dictSet_self a Xi _
      rw [hfind] at this
      injection this with this
      rw [h1]
      intro hc2
      have hc3 : (di.filter
          (fun x => dj.any (fun y => decide ((x, y) ∈ cXiXj)))) = [] := hc2
      exact hlen (by rw [this, hc3]; rfl)
  | case7 a q Xi Xj hq flag a1 hr hflag ih =>
    intro a2 h hne
    have hfl : flag = false := by
      cases flag
      · rfl
      · exact absurd rfl hflag
    subst hfl
    rw [ac3_eq_skip s hq hr] at h
    have heq := revised_false_eq hr
    subst heq
    exact ih a2 h hne

/-- Pointwise support of an assignment by a total valuation. -/
def Supports (f : V → D) (a : List (V × List D)) : Prop := ∀ p ∈ a, f p.1 ∈ p.2

instance (f : V → D) (a : List (V × List D)) : Decidable (Supports f a) := by
  unfold Supports
  infer_instance

/-- A valuation satisfying every registered constraint of the store. -/
def SolutionOf (s : Solver V D) (f : V → D) : Prop :=
  ∀ arc ∈ get_all_arcs s, (f arc.1, f arc.2) ∈ pairsOf s arc.1 arc.2

instance (s : Solver V D) (f : V → D) : Decidable (SolutionOf s f) := by
  unfold SolutionOf
  infer_instance

/-- A family of value sets contained pointwise in the assignment. -/
def Refines (b : V → List D) (a : List (V × List D)) : Prop := ∀ p ∈ a, b p.1 ⊆ p.2

/-- A family of value sets that is arc consistent on its own: every member
value has a support inside the family for every registered arc. -/
def SolRefinement (s : Solver V D) (b : V → List D) : Prop :=
  ∀ i j, registeredB s i j = true → ∀ x ∈ b i, ∃ y ∈ b j, (x, y) ∈ pairsOf s i j

/-- Both endpoints of every registered arc appear in the assignment. -/
def ArcKeysCover (s : Solver V D) (a : List (V × List D)) : Prop :=
  ∀ arc ∈ get_all_arcs s, (dictFind? a arc.1).isSome = true ∧
    (dictFind? a arc.2).isSome = true

instance (s : Solver V D) (a : List (V × List D)) : Decidable (ArcKeysCover s a) := by
  unfold ArcKeysCover
  infer_instance

/-- Every arc of the worklist is registered in the store. -/
def QueueReg (s : Solver V D) (q : List (V × V)) : Prop :=
  ∀ arc ∈ q, registeredB s arc.1 arc.2 = true

theorem SpineLe.find_isSome {a1 a : List (V × List D)} (h : SpineLe a1 a) (v : V) :
    (dictFind? a1 v).isSome = (dictFind? a v).isSome := by
  rcases hf : dictFind? a v with _ | d
  · rcases hf1 : dictFind? a1 v with _ | d1
    · rfl
    · obtain ⟨d2, hd2, _⟩ := h.find_some_rev hf1
      rw [hf] at hd2
      cases hd2
  · obtain ⟨d2, hd2, _⟩ := h.find_some hf
    rw [hd2]
    rfl

theorem revised_refines {s : Solver V D} {a a1 : List (V × List D)} {Xi Xj : V}
    {flag : Bool} {b : V → List D} (hr : revised s a Xi Xj = some (flag, a1))
    (hb : SolRefinement s b) (hba : Refines b a) : Refines b a1 := by
  obtain ⟨ci, cXiXj, di, dj, hc, hcj, hdi, hdj, ha1, hflag⟩ := revised_some_elim hr
  intro p hp
  rcases mem_dictSet p (ha1 ▸ hp) with h1 | h1
  · exact hba p h1
  · rw [h1]
    intro x hx
    have hxdi : x ∈ di := hba (Xi, di) (dictFind?_mem hdi) hx
    obtain ⟨y, hy, hxy⟩ := hb Xi Xj (registeredB_of hc hcj) x hx
    rw [pairsOf_eq hc hcj] at hxy
    have hydj : y ∈ dj := hba (Xj, dj) (dictFind?_mem hdj) hy
    refine List.mem_filter.mpr ⟨hxdi, ?_⟩
    exact List.any_eq_true.mpr ⟨y, hydj, by simp [hxy]⟩

/-- AC-3 never removes a value that belongs to an arc-consistent refinement
of the assignment; in particular values of a solution survive. -/
theorem ac3_refines {s : Solver V D} {b : V → List D} (hb : SolRefinement s b)
    (a : List (V × List D)) (q : List (V × V)) :
    ∀ fl a2, ac3_inference s a q = some (fl, a2) → Refines b a → Refines b a2 := by
  induction a, q using ac3_inference.induct (s := s) with
  | case1 a q hq =>
    intro fl a2 h hba
    rw [ac3_eq_done s hq] at h
    injection h with h2
    injection h2 with hf ha
    exact ha ▸ hba
  | case2 a q Xi Xj hq hr =>
    intro fl a2 h hba
    rw [ac3_eq_crash1 s hq hr] at h
    cases h
  | case3 a q Xi Xj hq a1 hfind hr =>
    intro fl a2 h hba
    obtain ⟨ndi, hndi⟩ := revised_find_self hr
    rw [hndi] at hfind
    cases hfind
  | case4 a q Xi Xj hq a1 di1 hfind hlen hr =>
    intro fl a2 h hba
    rw [ac3_eq_emptied s hq hr (List.length_eq_zero.mp hlen ▸ hfind)] at h
    injection h with h2
    injection h2 with hf ha
    exact ha ▸ revised_refines hr hb hba
  | case5 a q Xi Xj hq a1 di1 hfind hlen hn hr =>
    intro fl a2 h hba
    obtain ⟨nbrs, hnbrs⟩ := revised_nbrs_some hr
    rw [hnbrs] at hn
    cases hn
  | case6 a q Xi Xj hq a1 di1 hfind hlen nbrs hn hr ih =>
    intro fl a2 h hba
    rw [ac3_eq_enqueue s hq hr hfind (fun hc => hlen (hc ▸ rfl)) hn] at h
    exact ih fl a2 h (revised_refines hr hb hba)
  | case7 a q Xi Xj hq flag a1 hr hflag ih =>
    intro fl a2 h hba
    have hfl : flag = false := by
      cases flag
      · rfl
      · exact absurd rfl hflag
    subst hfl
    rw [ac3_eq_skip s hq hr] at h
    have heq := revised_false_eq hr
    subst heq
    exact ih fl a2 h hba

/-- Under the two-way registration discipline, AC-3 never raises a
KeyError: it returns a boolean verdict. -/
theorem ac3_total {s : Solver V D} (hsym : SymStore s)
    (a : List (V × List D)) (q : List (V × V)) :
    QueueReg s q → ArcKeysCover s a → (ac3_inference s a q).isSome = true := by
  induction a, q using ac3_inference.induct (s := s) with
  | case1 a q hq =>
    intro hqr hcov
    rw [ac3_eq_done s hq]
    rfl
  | case2 a q Xi Xj hq hr =>
    intro hqr hcov
    have hreg := hqr (Xi, Xj) (mem_of_getLast? hq)
    have hkeys := hcov (Xi, Xj) (registeredB_mem_arcs hreg)
    have := revised_total hreg hkeys.1 hkeys.2
    rw [hr] at this
    cases this
  | case3 a q Xi Xj hq a1 hfind hr =>
    intro hqr hcov
    obtain ⟨ndi, hndi⟩ := revised_find_self hr
    rw [hndi] at hfind
    cases hfind
  | case4 a q Xi Xj hq a1 di1 hfind hlen hr =>
    intro hqr hcov
    rw [ac3_eq_emptied s hq hr (List.length_eq_zero.mp hlen ▸ hfind)]
    rfl
  | case5 a q Xi Xj hq a1 di1 hfind hlen hn hr =>
    intro hqr hcov
    obtain ⟨nbrs, hnbrs⟩ := revised_nbrs_some hr
    rw [hnbrs] at hn
    cases hn
  | case6 a q Xi Xj hq a1 di1 hfind hlen nbrs hn hr ih =>
    intro hqr hcov
    rw [ac3_eq_enqueue s hq hr hfind (fun hc => hlen (hc ▸ rfl)) hn]
    refine ih ?_ ?_
    · intro arc hmem
      rcases List.mem_append.mp hmem with h1 | h1
      · refine hqr arc ?_
        rw [queue_decomp hq]
        exact List.mem_append_left _ h1
      · have h2 := (List.mem_filter.mp h1).1
        obtain ⟨h2snd, h2reg⟩ := nbrs_mem hn h2
        have harc : (Xi, arc.1) ∈ get_all_arcs s := registeredB_mem_arcs h2reg
        have := (hsym (Xi, arc.1) harc).2.1
        rw [← h2snd] at this
        exact this
    · intro arc hmem
      have hk := hcov arc hmem
      have hsp := revised_spine hr
      rw [hsp.find_isSome arc.1, hsp.find_isSome arc.2]
      exact hk
  | case7 a q Xi Xj hq flag a1 hr hflag ih =>
    intro hqr hcov
    have hfl : flag = false := by
      cases flag
      · rfl
      · exact absurd rfl hflag
    subst hfl
    rw [ac3_eq_skip s hq hr]
    have heq := revised_false_eq hr
    subst heq
    refine ih ?_ hcov
    intro arc hmem
    refine hqr arc ?_
    rw [queue_decomp hq]
    exact List.mem_append_left _ hmem

theorem getLast?_none_nil {A : Type} {l : List A} (h : l.getLast? = none) : l = [] := by
  rcases l with _ | ⟨x, rest⟩
  · rfl
  · rw [List.getLast?_eq_getLast (x :: rest) (by simp)] at h
    cases h

/-- Main invariant of AC-3 under two-way mirrored registration: when the
worklist empties with answer true, every registered arc is consistent.  The
invariant hypothesis states that every registered arc is either still queued
or already consistent; seeding with the full arc set satisfies it. -/
theorem ac3_true_consistent {s : Solver V D} (hsym : SymStore s)
    (a : List (V × List D)) (q : List (V × V)) :
    QueueReg s q →
    (∀ i j, registeredB s i j = true → (i, j) ∈ q ∨ ConsistentArc s a i j) →
    ∀ a2, ac3_inference s a q = some (true, a2) →
    ∀ i j, registeredB s i j = true → ConsistentArc s a2 i j := by
  induction a, q using ac3_inference.induct (s := s) with
  | case1 a q hq =>
    intro hqr hinv a2 h i j hreg
    rw [ac3_eq_done s hq] at h
    injection h with h2
    injection h2 with hf ha
    rcases hinv i j hreg with h1 | h1
    · rw [getLast?_none_nil hq] at h1
      cases h1
    · exact ha ▸ h1
  | case2 a q Xi Xj hq hr =>
    intro hqr hinv a2 h i j hreg
    have hpr := hqr (Xi, Xj) (mem_of_getLast? hq)
    obtain ⟨ci, cXiXj, hc, hcj⟩ := registeredB_elim hpr
    rw [ac3_eq_crash1 s hq hr] at h
    cases h
  | case3 a q Xi Xj hq a1 hfind hr =>
    intro hqr hinv a2 h i j hreg
    obtain ⟨ndi, hndi⟩ := revised_find_self hr
    rw [hndi] at hfind
    cases hfind
  | case4 a q Xi Xj hq a1 di1 hfind hlen hr =>
    intro hqr hinv a2 h i j hreg
    rw [ac3_eq_emptied s hq hr (List.length_eq_zero.mp hlen ▸ hfind)] at h
    injection h with h2
    injection h2 with hf ha
    cases hf
  | case5 a q Xi Xj hq a1 di1 hfind hlen hn hr =>
    intro hqr hinv a2 h i j hreg
    obtain ⟨nbrs, hnbrs⟩ := revised_nbrs_some hr
    rw [hnbrs] at hn
    cases hn
  | case6 a q Xi Xj hq a1 di1 hfind hlen nbrs hn hr ih =>
    intro hqr hinv a2 h i j hreg
    rw [ac3_eq_enqueue s hq hr hfind (fun hc => hlen (hc ▸ rfl)) hn] at h
    obtain ⟨ci, cXiXj, di, dj, hc, hcj, hdi, hdj, ha1, hflag⟩ := revised_some_elim hr
    have hpopq : (Xi, Xj) ∈ q := mem_of_getLast? hq
    have hpreg : registeredB s Xi Xj = true := hqr (Xi, Xj) hpopq
    have hparc := hsym (Xi, Xj) (registeredB_mem_arcs hpreg)
    have hne : Xi ≠ Xj := hparc.1
    have hdomXi : domOf a Xi = di := by unfold domOf; rw [hdi]; rfl
    have hdomXj : domOf a Xj = dj := by unfold domOf; rw [hdj]; rfl
    have hdom1Xi : domOf a1 Xi =
        di.filter (fun x => dj.any (fun y => decide ((x, y) ∈ cXiXj))) := by
      unfold domOf
      rw [ha1, dictFind?_dictSet_self]
      rfl
    have hdom1ne : ∀ v, v ≠ Xi → domOf a1 v = domOf a v := by
      intro v hv
      unfold domOf
      rw [ha1, dictFind?_dictSet_ne _ _ _ _ (fun hc2 => hv hc2.symm)]
    have hqreg2 : QueueReg s (q.dropLast ++
        nbrs.filter (fun arc => decide (Xj ≠ arc.1 ∧ Xj ≠ arc.2))) := by
      intro arc hmem
      rcases List.mem_append.mp hmem with h1 | h1
      · refine hqr arc ?_
        rw [queue_decomp hq]
        exact List.mem_append_left _ h1
      · have h2 := (List.mem_filter.mp h1).1
        obtain ⟨h2snd, h2reg⟩ := nbrs_mem hn h2
        have harc : (Xi, arc.1) ∈ get_all_arcs s := registeredB_mem_arcs h2reg
        have := (hsym (Xi, arc.1) harc).2.1
        rw [← h2snd] at this
        exact this
    refine ih hqreg2 ?_ a2 h i j hreg
    intro p q2 hreg2
    by_cases hq2Xi : q2 = Xi
    · rw [hq2Xi] at hreg2 ⊢
      by_cases hpXj : p = Xj
      · rw [hpXj] at hreg2 ⊢
        rcases hinv Xj Xi hreg2 with h1 | h1
        · rw [queue_decomp hq] at h1
          rcases List.mem_append.mp h1 with h2 | h2
          · exact Or.inl (List.mem_append_left _ h2)
          · rcases List.mem_singleton.mp h2 with h3
            injection h3 with h4 h5
            exact absurd h4.symm hne
        · refine Or.inr ?_
          intro x hx
          rw [hdom1ne Xj (Ne.symm hne)] at hx
          obtain ⟨y, hy, hxy⟩ := h1 x hx
          rw [hdomXi] at hy
          refine ⟨y, ?_, hxy⟩
          rw [hdom1Xi]
          refine List.mem_filter.mpr ⟨hy, ?_⟩
          have hmir := (hsym (Xj, Xi) (registeredB_mem_arcs hreg2)).2.2 (x, y) hxy
          rw [pairsOf_eq hc hcj] at hmir
          refine List.any_eq_true.mpr ⟨x, ?_, by simp [hmir]⟩
          rw [← hdomXj]
          exact hx
      · refine Or.inl (List.mem_append_right _ ?_)
        have hXip : registeredB s Xi p = true := by
          have := (hsym (p, Xi) (registeredB_mem_arcs hreg2)).2.1
          exact this
        refine List.mem_filter.mpr ⟨nbrs_mem_of_registered hn hXip, ?_⟩
        simp only [decide_eq_true_eq]
        exact ⟨fun hc2 => hpXj (hc2.symm), Ne.symm hne⟩
    · by_cases hpair : p = Xi ∧ q2 = Xj
      · obtain ⟨hp1, hp2⟩ := hpair
        rw [hp1, hp2]
        refine Or.inr ?_
        intro x hx
        rw [hdom1Xi] at hx
        obtain ⟨hxdi, hkeep⟩ := List.mem_filter.mp hx
        obtain ⟨y, hy, hxy⟩ := List.any_eq_true.mp hkeep
        refine ⟨y, ?_, ?_⟩
        · rw [hdom1ne Xj (Ne.symm hne), hdomXj]
          exact hy
        · rw [pairsOf_eq hc hcj]
          exact of_decide_eq_true hxy
      · rcases hinv p q2 hreg2 with h1 | h1
        · rw [queue_decomp hq] at h1
          rcases List.mem_append.mp h1 with h2 | h2
          · exact Or.inl (List.mem_append_left _ h2)
          · rcases List.mem_singleton.mp h2 with h3
            injection h3 with h4 h5
            exact absurd ⟨h4, h5⟩ hpair
        · refine Or.inr ?_
          intro x hx
          have hxp : x ∈ domOf a p := by
            by_cases hpXi : p = Xi
            · subst hpXi
              rw [hdom1Xi] at hx
              rw [hdomXi]
              exact (List.mem_filter.mp hx).1
            · rw [hdom1ne p hpXi] at hx
              exact hx
          obtain ⟨y, hy, hxy⟩ := h1 x hxp
          refine ⟨y, ?_, hxy⟩
          rw [hdom1ne q2 hq2Xi]
          exact hy
  | case7 a q Xi Xj hq flag a1 hr hflag ih =>
    intro hqr hinv a2 h i j hreg
    have hfl : flag = false := by
      cases flag
      · rfl
      · exact absurd rfl hflag
    subst hfl
    rw [ac3_eq_skip s hq hr] at h
    obtain ⟨ci, cXiXj, di, dj, hc, hcj, hdi, hdj, ha1, hflag2⟩ := revised_some_elim hr
    have heq := revised_false_eq hr
    subst heq
    have hqreg2 : QueueReg s q.dropLast := by
      intro arc hmem
      refine hqr arc ?_
      rw [queue_decomp hq]
      exact List.mem_append_left _ hmem
    refine ih hqreg2 ?_ a2 h i j hreg
    intro p q2 hreg2
    rcases hinv p q2 hreg2 with h1 | h1
    · rw [queue_decomp hq] at h1
      rcases List.mem_append.mp h1 with h2 | h2
      · exact Or.inl h2
      · rcases List.mem_singleton.mp h2 with h3
        injection h3 with h4 h5
        rw [h4, h5]
        refine Or.inr ?_
        intro x hx
        have hdomXi : domOf a1 Xi = di := by unfold domOf; rw [hdi]; rfl
        have hdomXj : domOf a1 Xj = dj := by unfold domOf; rw [hdj]; rfl
        rw [hdomXi] at hx
        have hkeep : ∀ z ∈ di, (fun x => dj.any (fun y => decide ((x, y) ∈ cXiXj))) z = true := by
          intro z hz
          by_contra hcz
          have : di.any (fun x => ! dj.any (fun y => decide ((x, y) ∈ cXiXj))) = true :=
            List.any_eq_true.mpr ⟨z, hz, by simp [hcz]⟩
          rw [← hflag2] at this
          cases this
        obtain ⟨y, hy, hxy⟩ := List.any_eq_true.mp (hkeep x hx)
        refine ⟨y, by rw [hdomXj]; exact hy, ?_⟩
        rw [pairsOf_eq hc hcj]
        exact of_decide_eq_true hxy
    · exact Or.inr h1

theorem revised_false_consistent {s : Solver V D} {a a1 : List (V × List D)}
    {Xi Xj : V} (hr : revised s a Xi Xj = some (false, a1)) :
    ConsistentArc s a Xi Xj := by
  obtain ⟨ci, cXiXj, di, dj, hc, hcj, hdi, hdj, ha1, hflag⟩ := revised_some_elim hr
  intro x hx
  have hdomXi : domOf a Xi = di := by unfold domOf; rw [hdi]; rfl
  have hdomXj : domOf a Xj = dj := by unfold domOf; rw [hdj]; rfl
  rw [hdomXi] at hx
  have hkeep : dj.any (fun y => decide ((x, y) ∈ cXiXj)) = true := by
    by_contra hcz
    have : di.any (fun z => ! dj.any (fun y => decide ((z, y) ∈ cXiXj))) = true :=
      List.any_eq_true.mpr ⟨x, hx, by simp [hcz]⟩
    rw [← hflag] at this
    cases this
  obtain ⟨y, hy, hxy⟩ := List.any_eq_true.mp hkeep
  exact ⟨y, by rw [hdomXj]; exact hy, by rw [pairsOf_eq hc hcj]; exact of_decide_eq_true hxy⟩

theorem revised_true_consistent {s : Solver V D} {a a1 : List (V × List D)}
    {Xi Xj : V} (hne : Xi ≠ Xj) (hr : revised s a Xi Xj = some (true, a1)) :
    ConsistentArc s a1 Xi Xj := by
  obtain ⟨ci, cXiXj, di, dj, hc, hcj, hdi, hdj, ha1, hflag⟩ := revised_some_elim hr
  intro x hx
  have hdom1Xi : domOf a1 Xi =
      di.filter (fun z => dj.any (fun y => decide ((z, y) ∈ cXiXj))) := by
    unfold domOf
    rw [ha1, dictFind?_dictSet_self]
    rfl
  have hdom1Xj : domOf a1 Xj = dj := by
    unfold domOf
    rw [ha1, dictFind?_dictSet_ne _ _ _ _ hne, hdj]
    rfl
  rw [hdom1Xi] at hx
  obtain ⟨hxdi, hkeep⟩ := List.mem_filter.mp hx
  obtain ⟨y, hy, hxy⟩ := List.any_eq_true.mp hkeep
  exact ⟨y, by rw [hdom1Xj]; exact hy,
    by rw [pairsOf_eq hc hcj]; exact of_decide_eq_true hxy⟩

theorem consistent_mono {s : Solver V D} {a1 a : List (V × List D)} {p q2 : V}
    (hsub : ∀ x ∈ domOf a1 p, x ∈ domOf a p) (heq : domOf a1 q2 = domOf a q2)
    (h : ConsistentArc s a p q2) : ConsistentArc s a1 p q2 := by
  intro x hx
  obtain ⟨y, hy, hxy⟩ := h x (hsub x hx)
  exact ⟨y, heq ▸ hy, hxy⟩

/-- Group invariant behind the all-different property: for a pair of
distinct variables registered against each other in both directions, with no
self constraint on either, a true AC-3 run from a worklist that contains one
of the two arcs (or established one of them consistent) ends with one of the
two arcs consistent. -/
theorem ac3_group {s : Solver V D} {i j : V} (hij : i ≠ j)
    (hregij : registeredB s i j = true) (hregji : registeredB s j i = true)
    (hnoii : ¬registeredB s i i = true) (hnojj : ¬registeredB s j j = true)
    (a : List (V × List D)) (q : List (V × V)) :
    (i, i) ∉ q → (j, j) ∉ q →
    ((i, j) ∈ q ∨ (j, i) ∈ q ∨ ConsistentArc s a i j ∨ ConsistentArc s a j i) →
    ∀ a2, ac3_inference s a q = some (true, a2) →
    ConsistentArc s a2 i j ∨ ConsistentArc s a2 j i := by
  induction a, q using ac3_inference.induct (s := s) with
  | case1 a q hq =>
    intro hqii hqjj hinv a2 h
    rw [ac3_eq_done s hq] at h
    injection h with h2
    injection h2 with hf ha
    rw [getLast?_none_nil hq] at hinv
    rcases hinv with h1 | h1 | h1 | h1
    · cases h1
    · cases h1
    · exact Or.inl (ha ▸ h1)
    · exact Or.inr (ha ▸ h1)
  | case2 a q Xi Xj hq hr =>
    intro hqii hqjj hinv a2 h
    rw [ac3_eq_crash1 s hq hr] at h
    cases h
  | case3 a q Xi Xj hq a1 hfind hr =>
    intro hqii hqjj hinv a2 h
    obtain ⟨ndi, hndi⟩ := revised_find_self hr
    rw [hndi] at hfind
    cases hfind
  | case4 a q Xi Xj hq a1 di1 hfind hlen hr =>
    intro hqii hqjj hinv a2 h
    rw [ac3_eq_emptied s hq hr (List.length_eq_zero.mp hlen ▸ hfind)] at h
    injection h with h2
    injection h2 with hf ha
    cases hf
  | case5 a q Xi Xj hq a1 di1 hfind hlen hn hr =>
    intro hqii hqjj hinv a2 h
    obtain ⟨nbrs, hnbrs⟩ := revised_nbrs_some hr
    rw [hnbrs] at hn
    cases hn
  | case6 a q Xi Xj hq a1 di1 hfind hlen nbrs hn hr ih =>
    intro hqii hqjj hinv a2 h
    rw [ac3_eq_enqueue s hq hr hfind (fun hc => hlen (hc ▸ rfl)) hn] at h
    obtain ⟨ci, cXiXj, di, dj, hc, hcj, hdi, hdj, ha1, hflag⟩ := revised_some_elim hr
    have hpopmem : (Xi, Xj) ∈ q := mem_of_getLast? hq
    have hdom1Xi : domOf a1 Xi =
        di.filter (fun z => dj.any (fun y => decide ((z, y) ∈ cXiXj))) := by
      unfold domOf
      rw [ha1, dictFind?_dictSet_self]
      rfl
    have hdom1ne : ∀ v, v ≠ Xi → domOf a1 v = domOf a v := by
      intro v hv
      unfold domOf
      rw [ha1, dictFind?_dictSet_ne _ _ _ _ (fun hc2 => hv hc2.symm)]
    have hdomXi : domOf a Xi = di := by unfold domOf; rw [hdi]; rfl
    have hsubAny : ∀ p, ∀ x ∈ domOf a1 p, x ∈ domOf a p := by
      intro p x hx
      by_cases hp : p = Xi
      · rw [hp] at hx ⊢
        rw [hdom1Xi] at hx
        rw [hdomXi]
        exact (List.mem_filter.mp hx).1
      · rw [hdom1ne p hp] at hx
        exact hx
    have hqii2 : (i, i) ∉ q.dropLast ++
        nbrs.filter (fun arc => decide (Xj ≠ arc.1 ∧ Xj ≠ arc.2)) := by
      intro hmem
      rcases List.mem_append.mp hmem with h1 | h1
      · exact hqii (by rw [queue_decomp hq]; exact List.mem_append_left _ h1)
      · have h2 := (List.mem_filter.mp h1).1
        obtain ⟨h2snd, h2reg⟩ := nbrs_mem hn h2
        have hXii : Xi = i := h2snd.symm ▸ rfl
        rw [hXii] at h2reg
        exact hnoii h2reg
    have hqjj2 : (j, j) ∉ q.dropLast ++
        nbrs.filter (fun arc => decide (Xj ≠ arc.1 ∧ Xj ≠ arc.2)) := by
      intro hmem
      rcases List.mem_append.mp hmem with h1 | h1
      · exact hqjj (by rw [queue_decomp hq]; exact List.mem_append_left _ h1)
      · have h2 := (List.mem_filter.mp h1).1
        obtain ⟨h2snd, h2reg⟩ := nbrs_mem hn h2
        have hXij : Xi = j := h2snd.symm ▸ rfl
        rw [hXij] at h2reg
        exact hnojj h2reg
    refine ih hqii2 hqjj2 ?_ a2 h
    rcases hinv with h1 | h1 | h1 | h1
    · rw [queue_decomp hq] at h1
      rcases List.mem_append.mp h1 with h2 | h2
      · exact Or.inl (List.mem_append_left _ h2)
      · have h3 := List.mem_singleton.mp h2
        injection h3 with h4 h5
        rw [← h4, ← h5] at hr
        exact Or.inr (Or.inr (Or.inl (revised_true_consistent hij hr)))
    · rw [queue_decomp hq] at h1
      rcases List.mem_append.mp h1 with h2 | h2
      · exact Or.inr (Or.inl (List.mem_append_left _ h2))
      · have h3 := List.mem_singleton.mp h2
        injection h3 with h4 h5
        rw [← h4, ← h5] at hr
        exact Or.inr (Or.inr (Or.inr (revised_true_consistent (Ne.symm hij) hr)))
    · by_cases hjXi : j = Xi
      · have hXjj : Xj ≠ j := by
          intro hc2
          rw [← hjXi] at hpopmem
          rw [hc2] at hpopmem
          exact hqjj hpopmem
        by_cases hXji : Xj = i
        · rw [← hjXi, hXji] at hr
          exact Or.inr (Or.inr (Or.inr (revised_true_consistent (Ne.symm hij) hr)))
        · refine Or.inl (List.mem_append_right _ ?_)
          have hmemn : (i, Xi) ∈ nbrs := by
            refine nbrs_mem_of_registered hn ?_
            rw [← hjXi]
            exact hregji
          have : (i, j) = (i, Xi) := by rw [hjXi]
          rw [this]
          refine List.mem_filter.mpr ⟨hmemn, ?_⟩
          simp only [decide_eq_true_eq]
          exact ⟨hXji, fun hc2 => hXjj (hjXi ▸ hc2)⟩
      · exact Or.inr (Or.inr (Or.inl
          (consistent_mono (hsubAny i) (hdom1ne j hjXi) h1)))
    · by_cases hiXi : i = Xi
      · have hXji2 : Xj ≠ i := by
          intro hc2
          rw [← hiXi] at hpopmem
          rw [hc2] at hpopmem
          exact hqii hpopmem
        by_cases hXjj : Xj = j
        · rw [← hiXi, hXjj] at hr
          exact Or.inr (Or.inr (Or.inl (revised_true_consistent hij hr)))
        · refine Or.inr (Or.inl (List.mem_append_right _ ?_))
          have hmemn : (j, Xi) ∈ nbrs := by
            refine nbrs_mem_of_registered hn ?_
            rw [← hiXi]
            exact hregij
          have : (j, i) = (j, Xi) := by rw [hiXi]
          rw [this]
          refine List.mem_filter.mpr ⟨hmemn, ?_⟩
          simp only [decide_eq_true_eq]
          exact ⟨hXjj, fun hc2 => hXji2 (hiXi ▸ hc2)⟩
      · exact Or.inr (Or.inr (Or.inr
          (consistent_mono (hsubAny j) (hdom1ne i hiXi) h1)))
  | case7 a q Xi Xj hq flag a1 hr hflag ih =>
    intro hqii hqjj hinv a2 h
    have hfl : flag = false := by
      cases flag
      · rfl
      · exact absurd rfl hflag
    subst hfl
    rw [ac3_eq_skip s hq hr] at h
    have hfc := revised_false_consistent hr
    have heq := revised_false_eq hr
    subst heq
    have hqii2 : (i, i) ∉ q.dropLast := by
      intro hmem
      exact hqii (by rw [queue_decomp hq]; exact List.mem_append_left _ hmem)
    have hqjj2 : (j, j) ∉ q.dropLast := by
      intro hmem
      exact hqjj (by rw [queue_decomp hq]; exact List.mem_append_left _ hmem)
    refine ih hqii2 hqjj2 ?_ a2 h
    rcases hinv with h1 | h1 | h1 | h1
    · rw [queue_decomp hq] at h1
      rcases List.mem_append.mp h1 with h2 | h2
      · exact Or.inl h2
      · have h3 := List.mem_singleton.mp h2
        injection h3 with h4 h5
        rw [← h4, ← h5] at hfc
        exact Or.inr (Or.inr (Or.inl hfc))
    · rw [queue_decomp hq] at h1
      rcases List.mem_append.mp h1 with h2 | h2
      · exact Or.inr (Or.inl h2)
      · have h3 := List.mem_singleton.mp h2
        injection h3 with h4 h5
        rw [← h4, ← h5] at hfc
        exact Or.inr (Or.inr (Or.inr hfc))
    · exact Or.inr (Or.inr (Or.inl h1))
    · exact Or.inr (Or.inr (Or.inr h1))

/-- Equality of the three Constraint Store fields of two solver states. -/
def SameStore (t u : Solver V D) : Prop :=
  t.variables = u.variables ∧ t.domains = u.domains ∧ t.constraints = u.constraints

theorem SameStore_refl (t : Solver V D) : SameStore t t := ⟨rfl, rfl, rfl⟩

theorem SameStore_trans {t u w : Solver V D} (h1 : SameStore t u) (h2 : SameStore u w) :
    SameStore t w :=
  ⟨h1.1.trans h2.1, h1.2.1.trans h2.2.1, h1.2.2.trans h2.2.2⟩

/-- Keys of an assignment hold no duplicates, as in a real Python dict. -/
def NodupKeys {B : Type} (l : List (V × B)) : Prop := (dictKeys l).Nodup

instance {B : Type} [DecidableEq B] (l : List (V × B)) : Decidable (NodupKeys l) := by
  unfold NodupKeys
  infer_instance

theorem hasCompleted_iff (a : List (V × List D)) :
    hasCompletedThe a = true ↔ ∀ p ∈ a, p.2.length = 1 := by
  unfold hasCompletedThe
  rw [List.all_eq_true]
  constructor
  · intro h p hp
    exact Nat.beq_eq ▸ (by simpa using h p hp)
  · intro h p hp
    simpa using h p hp

theorem select_none_iff (a : List (V × List D)) :
    selectUnassignedVariableFrom a = none ↔ ∀ p ∈ a, p.2.length ≤ 1 := by
  induction a with
  | nil => simp [selectUnassignedVariableFrom]
  | cons p rest ih =>
    unfold selectUnassignedVariableFrom
    by_cases hp : 1 < p.2.length
    · rw [if_pos hp]
      constructor
      · intro hc
        cases hc
      · intro hc
        exact absurd (hc p (List.mem_cons_self _ _)) (by omega)
    · rw [if_neg hp, ih]
      constructor
      · intro hc q hq
        rcases List.mem_cons.mp hq with h1 | h1
        · rw [h1]
          omega
        · exact hc q h1
      · intro hc q hq
        exact hc q (List.mem_cons_of_mem _ hq)

theorem select_some_mem {a : List (V × List D)} {Xi : V}
    (h : selectUnassignedVariableFrom a = some Xi) :
    ∃ dv, (Xi, dv) ∈ a ∧ 1 < dv.length := by
  induction a with
  | nil => cases h
  | cons p rest ih =>
    unfold selectUnassignedVariableFrom at h
    by_cases hp : 1 < p.2.length
    · rw [if_pos hp] at h
      injection h with h
      refine ⟨p.2, ?_, hp⟩
      rw [← h]
      exact List.mem_cons_self _ _
    · rw [if_neg hp] at h
      obtain ⟨dv, hmem, hlen⟩ := ih h
      exact ⟨dv, List.mem_cons_of_mem _ hmem, hlen⟩

theorem select_some_find {a : List (V × List D)} {Xi : V} (hnd : NodupKeys a)
    (h : selectUnassignedVariableFrom a = some Xi) :
    ∃ dv, dictFind? a Xi = some dv ∧ 1 < dv.length := by
  obtain ⟨dv, hmem, hlen⟩ := select_some_mem h
  exact ⟨dv, dictFind?_of_mem_nodup hnd hmem, hlen⟩

theorem select_isSome_of_incomplete {a : List (V × List D)}
    (hcomp : hasCompletedThe a = false) (hne : AllNonempty a) :
    ∃ Xi, selectUnassignedVariableFrom a = some Xi := by
  induction a with
  | nil => cases hcomp
  | cons p rest ih =>
    unfold selectUnassignedVariableFrom
    by_cases hp : 1 < p.2.length
    · exact ⟨p.1, by rw [if_pos hp]⟩
    · have hp1 : p.2.length = 1 := by
        have := hne p (List.mem_cons_self _ _)
        have : p.2.length ≠ 0 := fun hc => this (List.length_eq_zero.mp hc)
        omega
      have hcomp2 : hasCompletedThe rest = false := by
        by_contra hc
        have hc2 : hasCompletedThe rest = true := by
          cases hh : hasCompletedThe rest
          · exact absurd hh hc
          · rfl
        have : hasCompletedThe (p :: rest) = true := by
          rw [hasCompleted_iff] at hc2 ⊢
          intro q hq
          rcases List.mem_cons.mp hq with h1 | h1
          · rw [h1]
            exact hp1
          · exact hc2 q h1
        rw [this] at hcomp
        cases hcomp
      obtain ⟨Xi, hXi⟩ := ih hcomp2 (fun q hq => hne q (List.mem_cons_of_mem _ hq))
      exact ⟨Xi, by rw [if_neg hp]; exact hXi⟩

theorem backtrackLoop_frame {bk : Solver V D → List (V × List D) → SearchOut V D}
    (hbk : ∀ s3 a3 s4 r4, bk s3 a3 = SearchOut.ok s4 r4 → SameStore s4 s3)
    (a : List (V × List D)) (Xi : V) :
    ∀ (cands : List D) (s : Solver V D) s4 r4,
      backtrackLoop bk s a Xi cands = SearchOut.ok s4 r4 → SameStore s4 s := by
  intro cands
  induction cands with
  | nil =>
    intro s s4 r4 h
    simp only [backtrackLoop] at h
    injection h with h1 h2
    exact h1 ▸ SameStore_refl s
  | cons d rest ih =>
    intro s s4 r4 h
    simp only [backtrackLoop, isConsistent, if_true] at h
    split at h
    · cases h
    · exact ih s s4 r4 h
    · split at h
      · next s5 r5 heq =>
        injection h with h1 h2
        exact h1 ▸ hbk s _ s5 (some r5) heq
      · next s5 heq =>
        exact SameStore_trans (ih s5 s4 r4 h) (hbk s _ s5 none heq)
      · cases h
      · cases h

/-- The Constraint Store is read-only during search: any normal return of
backtrack carries the store unchanged. -/
theorem backtrack_frame :
    ∀ (fuel : Nat) (s : Solver V D) (a : List (V × List D)) s4 r4,
      backtrack fuel s a = SearchOut.ok s4 r4 → SameStore s4 s := by
  intro fuel
  induction fuel with
  | zero =>
    intro s a s4 r4 h
    cases h
  | succ n ih =>
    intro s a s4 r4 h
    simp only [backtrack] at h
    split at h
    · injection h with h1 h2
      exact h1 ▸ SameStore_refl s
    · split at h
      · cases h
      · split at h
        · cases h
        · split at h
          · next s5 heq =>
            injection h with h1 h2
            have h3 := backtrackLoop_frame (fun s3 a3 s6 r6 hh => ih s3 a3 s6 r6 hh) a _ _ _ _ _ heq
            have h4 : SameStore s4 s5 := h1 ▸ ⟨rfl, rfl, rfl⟩
            exact SameStore_trans (SameStore_trans h4 h3) ⟨rfl, rfl, rfl⟩
          · next r5 hne2 =>
            exact SameStore_trans
              (backtrackLoop_frame (fun s3 a3 s6 r6 hh => ih s3 a3 s6 r6 hh) a _ _ _ _ _ h)
              ⟨rfl, rfl, rfl⟩

theorem backtrackLoop_counters {bk : Solver V D → List (V × List D) → SearchOut V D}
    (hbk : ∀ s3 a3 s4 r4, bk s3 a3 = SearchOut.ok s4 r4 →
      s3.numCalls ≤ s4.numCalls ∧ s3.numFailures ≤ s4.numFailures)
    (a : List (V × List D)) (Xi : V) :
    ∀ (cands : List D) (s : Solver V D) s4 r4,
      backtrackLoop bk s a Xi cands = SearchOut.ok s4 r4 →
      s.numCalls ≤ s4.numCalls ∧ s.numFailures ≤ s4.numFailures := by
  intro cands
  induction cands with
  | nil =>
    intro s s4 r4 h
    simp only [backtrackLoop] at h
    injection h with h1 h2
    exact h1 ▸ ⟨Nat.le_refl _, Nat.le_refl _⟩
  | cons d rest ih =>
    intro s s4 r4 h
    simp only [backtrackLoop, isConsistent, if_true] at h
    split at h
    · cases h
    · exact ih s s4 r4 h
    · split at h
      · next s5 r5 heq =>
        injection h with h1 h2
        exact h1 ▸ hbk s _ s5 (some r5) heq
      · next s5 heq =>
        have h1 := hbk s _ s5 none heq
        have h2 := ih s5 s4 r4 h
        exact ⟨Nat.le_trans h1.1 h2.1, Nat.le_trans h1.2 h2.2⟩
      · cases h
      · cases h

/-- The call counter strictly increases and the failure counter never
decreases across a call to backtrack; a branch returning None has also
incremented the failure counter. -/
theorem backtrack_counters :
    ∀ (fuel : Nat) (s : Solver V D) (a : List (V × List D)) s4 r4,
      backtrack fuel s a = SearchOut.ok s4 r4 →
      s.numCalls < s4.numCalls ∧ s.numFailures ≤ s4.numFailures ∧
      (r4 = none → s.numFailures < s4.numFailures) := by
  intro fuel
  induction fuel with
  | zero =>
    intro s a s4 r4 h
    cases h
  | succ n ih =>
    intro s a s4 r4 h
    have hbk : ∀ (s3 : Solver V D) (a3 : List (V × List D)) s4 r4,
        backtrack n s3 a3 = SearchOut.ok s4 r4 →
        s3.numCalls ≤ s4.numCalls ∧ s3.numFailures ≤ s4.numFailures := by
      intro s3 a3 s6 r6 hh
      have := ih s3 a3 s6 r6 hh
      exact ⟨Nat.le_of_lt this.1, this.2.1⟩
    simp only [backtrack] at h
    split at h
    · next hcomp =>
      injection h with h1 h2
      subst h1
      refine ⟨Nat.lt_succ_self _, Nat.le_refl _, ?_⟩
      intro hc
      rw [← h2] at hc
      cases hc
    · split at h
      · cases h
      · split at h
        · cases h
        · split at h
          · next s5 heq =>
            injection h with h1 h2
            subst h1
            have h3 := backtrackLoop_counters hbk a _ _ _ _ _ heq
            exact ⟨Nat.lt_of_lt_of_le (Nat.lt_succ_self _) h3.1,
              Nat.le_trans h3.2 (Nat.le_succ _),
              fun _ => Nat.lt_of_le_of_lt h3.2 (Nat.lt_succ_self _)⟩
          · next r5 hne2 =>
            have h3 := backtrackLoop_counters hbk a _ _ _ _ _ h
            refine ⟨Nat.lt_of_lt_of_le (Nat.lt_succ_self _) h3.1, h3.2, ?_⟩
            intro hc
            subst hc
            exact absurd h (hne2 s4)

/-- On entering backtrack with a completed assignment the call counter is
incremented by exactly one and the assignment is returned as the solution. -/
theorem backtrack_complete_eq (fuel : Nat) (s : Solver V D) (a : List (V × List D))
    (hcomp : hasCompletedThe a = true) :
    backtrack (fuel + 1) s a =
      SearchOut.ok { s with numCalls := s.numCalls + 1 } (some a) := by
  simp [backtrack, hcomp]

theorem backtrackLoop_ne_fuelOut {n : Nat}
    (ihf : ∀ (s : Solver V D) (a : List (V × List D)),
      NodupKeys a → unassignedCount a < n → backtrack n s a ≠ SearchOut.fuelOut)
    {a : List (V × List D)} {Xi : V} (hnd : NodupKeys a) (hmem : Xi ∈ dictKeys a)
    (hcnt : ∀ d : D, unassignedCount (dictSet a Xi [d]) < n) :
    ∀ (cands : List D) (s : Solver V D),
      backtrackLoop (backtrack n) s a Xi cands ≠ SearchOut.fuelOut := by
  intro cands
  induction cands with
  | nil =>
    intro s h
    simp only [backtrackLoop] at h
    cases h
  | cons d rest ih =>
    intro s
    simp only [backtrackLoop, isConsistent, if_true]
    split
    · intro h
      cases h
    · exact ih s
    · next a2 heq =>
      split
      · intro h
        cases h
      · next s5 heq2 =>
        exact ih s5
      · intro h
        cases h
      · next heq2 =>
        intro _
        have hsp := ac3_spine (s := s) (dictSet a Xi [d]) (get_all_arcs s) true a2 heq
        have hnd2 : NodupKeys a2 := by
          unfold NodupKeys
          rw [hsp.keys, dictKeys_dictSet_of_mem _ hmem]
          exact hnd
        have hlt2 : unassignedCount a2 < n :=
          Nat.lt_of_le_of_lt (unassignedCount_le_of_spine hsp) (hcnt d)
        exact ihf s a2 hnd2 hlt2 heq2

/-- Fuel one larger than the number of undecided variables is enough:
backtrack never runs out, because each recursive call strictly decreases
the count of variables with more than one remaining value. -/
theorem backtrack_fuel :
    ∀ (fuel : Nat) (s : Solver V D) (a : List (V × List D)),
      NodupKeys a → unassignedCount a < fuel →
      backtrack fuel s a ≠ SearchOut.fuelOut := by
  intro fuel
  induction fuel with
  | zero =>
    intro s a hnd hlt
    cases hlt
  | succ n ih =>
    intro s a hnd hlt
    simp only [backtrack]
    split
    · intro h
      cases h
    · split
      · intro h
        cases h
      · next Xi hsel =>
        split
        · intro h
          cases h
        · next di heqf =>
          obtain ⟨dv, hdv, hlen⟩ := select_some_find hnd hsel
          rw [heqf] at hdv
          injection hdv with hdv
          subst hdv
          have hmem : Xi ∈ dictKeys a :=
            (dictFind?_isSome_iff_mem a Xi).mp (by rw [heqf]; rfl)
          have hcnt : ∀ d : D, unassignedCount (dictSet a Xi [d]) < n := by
            intro d
            have h1 := unassignedCount_dictSet_lt d heqf hlen
            omega
          split
          · intro h
            cases h
          · next r5 hne2 =>
            exact backtrackLoop_ne_fuelOut (fun s3 a3 h3 h4 => ih s3 a3 h3 h4)
              hnd hmem hcnt di _

theorem get_all_arcs_congr {t u : Solver V D} (h : t.constraints = u.constraints) :
    get_all_arcs t = get_all_arcs u := by
  unfold get_all_arcs
  rw [h]

theorem registeredB_congr {t u : Solver V D} (h : t.constraints = u.constraints)
    (i j : V) : registeredB t i j = registeredB u i j := by
  unfold registeredB
  rw [h]

theorem pairsOf_congr {t u : Solver V D} (h : t.constraints = u.constraints)
    (i j : V) : pairsOf t i j = pairsOf u i j := by
  unfold pairsOf
  rw [h]

theorem SymStore_congr {t u : Solver V D} (h : t.constraints = u.constraints)
    (hs : SymStore u) : SymStore t := by
  intro arc harc
  rw [get_all_arcs_congr h] at harc
  have := hs arc harc
  rw [registeredB_congr h, pairsOf_congr h, pairsOf_congr h]
  exact this

theorem StoreNodup_congr {t u : Solver V D} (h : t.constraints = u.constraints)
    (hs : StoreNodup u) : StoreNodup t := by
  unfold StoreNodup
  rw [h]
  exact hs

theorem ArcKeysCover_congr {t u : Solver V D} {a : List (V × List D)}
    (h : t.constraints = u.constraints) (hs : ArcKeysCover u a) : ArcKeysCover t a := by
  intro arc harc
  rw [get_all_arcs_congr h] at harc
  exact hs arc harc

theorem SolutionOf_congr {t u : Solver V D} {f : V → D}
    (h : t.constraints = u.constraints) (hs : SolutionOf u f) : SolutionOf t f := by
  intro arc harc
  rw [get_all_arcs_congr h] at harc
  rw [pairsOf_congr h]
  exact hs arc harc

theorem ConsistentArc_congr {t u : Solver V D} {a : List (V × List D)} {i j : V}
    (h : t.constraints = u.constraints) (hs : ConsistentArc u a i j) :
    ConsistentArc t a i j := by
  intro x hx
  rw [pairsOf_congr h]
  exact hs x hx

theorem ArcKeysCover_dictSet {s : Solver V D} {a : List (V × List D)}
    (hcov : ArcKeysCover s a) (Xi : V) (v : List D) :
    ArcKeysCover s (dictSet a Xi v) := by
  intro arc harc
  have h1 := hcov arc harc
  constructor
  · by_cases hx : Xi = arc.1
    · rw [← hx, dictFind?_dictSet_self]
      rfl
    · rw [dictFind?_dictSet_ne a Xi arc.1 v hx]
      exact h1.1
  · by_cases hx : Xi = arc.2
    · rw [← hx, dictFind?_dictSet_self]
      rfl
    · rw [dictFind?_dictSet_ne a Xi arc.2 v hx]
      exact h1.2

theorem ArcKeysCover_of_spine {s : Solver V D} {a2 a : List (V × List D)}
    (h : SpineLe a2 a) (hcov : ArcKeysCover s a) : ArcKeysCover s a2 := by
  intro arc harc
  have h1 := hcov arc harc
  rw [h.find_isSome arc.1, h.find_isSome arc.2]
  exact h1

theorem AllNonempty_dictSet {a : List (V × List D)} (hne : AllNonempty a)
    (Xi : V) {v : List D} (hv : v ≠ []) : AllNonempty (dictSet a Xi v) := by
  intro p hp
  rcases mem_dictSet p hp with h1 | h1
  · exact hne p h1
  · rw [h1]
    exact hv

theorem QueueReg_arcs {s : Solver V D} (hsn : StoreNodup s) :
    QueueReg s (get_all_arcs s) := by
  intro arc harc
  exact mem_arcs_registeredB hsn (by rw [show ((arc.1, arc.2) : V × V) = arc from rfl]; exact harc)

theorem backtrackLoop_cons_none {bk : Solver V D → List (V × List D) → SearchOut V D}
    {s : Solver V D} {a : List (V × List D)} {Xi : V} {d : D} {rest : List D}
    (hac : ac3_inference s (dictSet a Xi [d]) (get_all_arcs s) = none) :
    backtrackLoop bk s a Xi (d :: rest) = SearchOut.keyError := by
  simp only [backtrackLoop, isConsistent, if_true]
  rw [hac]

theorem backtrackLoop_cons_false {bk : Solver V D → List (V × List D) → SearchOut V D}
    {s : Solver V D} {a a2 : List (V × List D)} {Xi : V} {d : D} {rest : List D}
    (hac : ac3_inference s (dictSet a Xi [d]) (get_all_arcs s) = some (false, a2)) :
    backtrackLoop bk s a Xi (d :: rest) = backtrackLoop bk s a Xi rest := by
  simp only [backtrackLoop, isConsistent, if_true]
  rw [hac]

theorem backtrackLoop_cons_true {bk : Solver V D → List (V × List D) → SearchOut V D}
    {s : Solver V D} {a a2 : List (V × List D)} {Xi : V} {d : D} {rest : List D}
    (hac : ac3_inference s (dictSet a Xi [d]) (get_all_arcs s) = some (true, a2)) :
    backtrackLoop bk s a Xi (d :: rest) =
      match bk s a2 with
      | SearchOut.ok s2 (some r) => SearchOut.ok s2 (some r)
      | SearchOut.ok s2 none => backtrackLoop bk s2 a Xi rest
      | SearchOut.keyError => SearchOut.keyError
      | SearchOut.fuelOut => SearchOut.fuelOut := by
  simp only [backtrackLoop, isConsistent, if_true]
  rw [hac]

theorem backtrackLoop_ok {n : Nat} {s : Solver V D}
    (hsym : SymStore s) (hsn : StoreNodup s)
    (ihf : ∀ (s3 : Solver V D) (a3 : List (V × List D)), s3.constraints = s.constraints →
      NodupKeys a3 → ArcKeysCover s a3 → AllNonempty a3 → unassignedCount a3 < n →
      ∃ s4 r4, backtrack n s3 a3 = SearchOut.ok s4 r4)
    {a : List (V × List D)} {Xi : V} (hnd : NodupKeys a) (hmem : Xi ∈ dictKeys a)
    (hcov : ArcKeysCover s a) (hne : AllNonempty a)
    (hcnt : ∀ d : D, unassignedCount (dictSet a Xi [d]) < n) :
    ∀ (cands : List D) (s6 : Solver V D), s6.constraints = s.constraints →
      ∃ s4 r4, backtrackLoop (backtrack n) s6 a Xi cands = SearchOut.ok s4 r4 := by
  intro cands
  induction cands with
  | nil =>
    intro s6 hcon
    exact ⟨s6, none, rfl⟩
  | cons d rest ih =>
    intro s6 hcon
    have hsym6 : SymStore s6 := SymStore_congr hcon hsym
    have hsn6 : StoreNodup s6 := StoreNodup_congr hcon hsn
    have hcov6 : ArcKeysCover s6 (dictSet a Xi [d]) :=
      ArcKeysCover_congr hcon (ArcKeysCover_dictSet hcov Xi [d])
    have htot := ac3_total hsym6 (dictSet a Xi [d]) (get_all_arcs s6)
      (QueueReg_arcs hsn6) hcov6
    rcases hac : ac3_inference s6 (dictSet a Xi [d]) (get_all_arcs s6) with _ | ⟨fl, a2⟩
    · rw [hac] at htot
      cases htot
    cases fl
    · rw [backtrackLoop_cons_false hac]
      exact ih s6 hcon
    · rw [backtrackLoop_cons_true hac]
      have hsp := ac3_spine (s := s6) (dictSet a Xi [d]) (get_all_arcs s6) true a2 hac
      have hnd2 : NodupKeys a2 := by
        unfold NodupKeys
        rw [hsp.keys, dictKeys_dictSet_of_mem _ hmem]
        exact hnd
      have hcov2 : ArcKeysCover s a2 :=
        ArcKeysCover_congr hcon.symm
          (ArcKeysCover_of_spine hsp hcov6)
      have hne2 : AllNonempty a2 :=
        ac3_true_nonempty (s := s6) (dictSet a Xi [d]) (get_all_arcs s6) a2 hac
          (AllNonempty_dictSet hne Xi (by simp))
      have hlt2 : unassignedCount a2 < n :=
        Nat.lt_of_le_of_lt (unassignedCount_le_of_spine hsp) (hcnt d)
      obtain ⟨s5, r5, hbt⟩ := ihf s6 a2 hcon hnd2 hcov2 hne2 hlt2
      rw [hbt]
      cases r5 with
      | some r =>
        exact ⟨s5, some r, rfl⟩
      | none =>
        have hcon5 : s5.constraints = s.constraints := by
          rw [(backtrack_frame n s6 a2 s5 none hbt).2.2, hcon]
        exact ih s5 hcon5

/-- Normal completion: on a store with two-way mirrored constraints without
duplicate keys, an assignment with no duplicate keys, no empty domain, and
every arc endpoint present, backtrack with sufficient fuel neither raises
KeyError nor exhausts the fuel. -/
theorem backtrack_ok :
    ∀ (fuel : Nat) (s : Solver V D) (a : List (V × List D)),
      SymStore s → StoreNodup s → NodupKeys a → ArcKeysCover s a →
      AllNonempty a → unassignedCount a < fuel →
      ∃ s4 r4, backtrack fuel s a = SearchOut.ok s4 r4 := by
  intro fuel
  induction fuel with
  | zero =>
    intro s a _ _ _ _ _ hlt
    cases hlt
  | succ n ih =>
    intro s a hsym hsn hnd hcov hne hlt
    rcases hcomp : hasCompletedThe a with _ | _
    · obtain ⟨Xi, hsel⟩ := select_isSome_of_incomplete hcomp hne
      obtain ⟨di, heqf, hlen⟩ := select_some_find hnd hsel
      have hmem : Xi ∈ dictKeys a :=
        (dictFind?_isSome_iff_mem a Xi).mp (by rw [heqf]; rfl)
      have hcnt : ∀ d : D, unassignedCount (dictSet a Xi [d]) < n := by
        intro d
        have h1 := unassignedCount_dictSet_lt d heqf hlen
        omega
      have ihf : ∀ (s3 : Solver V D) (a3 : List (V × List D)),
          s3.constraints = s.constraints →
          NodupKeys a3 → ArcKeysCover s a3 → AllNonempty a3 → unassignedCount a3 < n →
          ∃ s4 r4, backtrack n s3 a3 = SearchOut.ok s4 r4 := by
        intro s3 a3 hcon3 hnd3 hcov3 hne3 hlt3
        exact ih s3 a3 (SymStore_congr hcon3 hsym) (StoreNodup_congr hcon3 hsn)
          hnd3 (ArcKeysCover_congr hcon3 hcov3) hne3 hlt3
      obtain ⟨s4, r4, hloop⟩ :=
        backtrackLoop_ok hsym hsn ihf hnd hmem hcov hne hcnt di
          { s with numCalls := s.numCalls + 1 } rfl
      simp only [backtrack, hcomp, hsel, heqf, Bool.false_eq_true, if_false]
      rw [hloop]
      cases r4 with
      | some r => exact ⟨s4, some r, rfl⟩
      | none => exact ⟨_, none, rfl⟩
    · exact ⟨_, some a, backtrack_complete_eq n s a hcomp⟩

theorem backtrackLoop_returns {n : Nat} {s0 : Solver V D}
    (ihf : ∀ (s3 : Solver V D) (a3 : List (V × List D)) s4 r,
      s3.constraints = s0.constraints →
      backtrack n s3 a3 = SearchOut.ok s4 (some r) →
      hasCompletedThe r = true ∧ SpineLe r a3 ∧
        (r = a3 ∨ ∃ s5 a0, s5.constraints = s0.constraints ∧
          ac3_inference s5 a0 (get_all_arcs s5) = some (true, r)))
    {a : List (V × List D)} {Xi : V} {di : List D} (heqf : dictFind? a Xi = some di) :
    ∀ (cands : List D), cands ⊆ di → ∀ (s6 : Solver V D), s6.constraints = s0.constraints →
      ∀ s4 r, backtrackLoop (backtrack n) s6 a Xi cands = SearchOut.ok s4 (some r) →
      hasCompletedThe r = true ∧ SpineLe r a ∧
        ∃ s5 a0, s5.constraints = s0.constraints ∧
          ac3_inference s5 a0 (get_all_arcs s5) = some (true, r) := by
  intro cands
  induction cands with
  | nil =>
    intro _ s6 _ s4 r h
    simp only [backtrackLoop] at h
    injection h with h1 h2
    cases h2
  | cons d rest ih =>
    intro hsub s6 hcon6 s4 r h
    rcases hac : ac3_inference s6 (dictSet a Xi [d]) (get_all_arcs s6) with _ | ⟨fl, a2⟩
    · rw [backtrackLoop_cons_none hac] at h
      cases h
    cases fl
    · rw [backtrackLoop_cons_false hac] at h
      exact ih (fun x hx => hsub (List.mem_cons_of_mem _ hx)) s6 hcon6 s4 r h
    · rw [backtrackLoop_cons_true hac] at h
      have hdmem : d ∈ di := hsub (List.mem_cons_self _ _)
      have hset : SpineLe (dictSet a Xi [d]) a :=
        SpineLe.dictSet heqf (List.singleton_sublist.mpr hdmem)
      have hsp2 : SpineLe a2 (dictSet a Xi [d]) :=
        ac3_spine (s := s6) (dictSet a Xi [d]) (get_all_arcs s6) true a2 hac
      split at h
      · next s5 r5 heq =>
        injection h with h1 h2
        injection h2 with h2
        subst h1
        subst h2
        obtain ⟨hcompl, hspine, hdisj⟩ := ihf s6 a2 s5 r5 hcon6 heq
        refine ⟨hcompl, hspine.trans (hsp2.trans hset), ?_⟩
        rcases hdisj with hr2 | hex
        · subst hr2
          exact ⟨s6, dictSet a Xi [d], hcon6, hac⟩
        · exact hex
      · next s5 heq =>
        have hcon5 : s5.constraints = s0.constraints := by
          rw [(backtrack_frame n s6 a2 s5 none heq).2.2, hcon6]
        exact ih (fun x hx => hsub (List.mem_cons_of_mem _ hx)) s5 hcon5 s4 r h
      · cases h
      · cases h

/-- Characterisation of a returned solution: it is a complete assignment,
each variable keeps a subset of the values it had on entry, and it is
either the entry assignment itself or the output of a run of AC-3 over the
full arc set that answered true. -/
theorem backtrack_returns :
    ∀ (fuel : Nat) (s : Solver V D) (a : List (V × List D)) s4 r,
      backtrack fuel s a = SearchOut.ok s4 (some r) →
      hasCompletedThe r = true ∧ SpineLe r a ∧
        (r = a ∨ ∃ s5 a0, s5.constraints = s.constraints ∧
          ac3_inference s5 a0 (get_all_arcs s5) = some (true, r)) := by
  intro fuel
  induction fuel with
  | zero =>
    intro s a s4 r h
    cases h
  | succ n ih =>
    intro s a s4 r h
    have ihf : ∀ (s3 : Solver V D) (a3 : List (V × List D)) s4 r,
        s3.constraints = s.constraints →
        backtrack n s3 a3 = SearchOut.ok s4 (some r) →
        hasCompletedThe r = true ∧ SpineLe r a3 ∧
          (r = a3 ∨ ∃ s5 a0, s5.constraints = s.constraints ∧
            ac3_inference s5 a0 (get_all_arcs s5) = some (true, r)) := by
      intro s3 a3 s6 r6 hcon3 hh
      obtain ⟨h1, h2, h3⟩ := ih s3 a3 s6 r6 hh
      refine ⟨h1, h2, ?_⟩
      rcases h3 with h4 | ⟨s5, a0, h5, h6⟩
      · exact Or.inl h4
      · exact Or.inr ⟨s5, a0, h5.trans hcon3, h6⟩
    simp only [backtrack] at h
    split at h
    · next hcomp =>
      injection h with h1 h2
      injection h2 with h2
      subst h2
      exact ⟨hcomp, SpineLe.refl a, Or.inl rfl⟩
    · split at h
      · cases h
      · next Xi hsel =>
        split at h
        · cases h
        · next di heqf =>
          split at h
          · next s5 heq =>
            injection h with h1 h2
            cases h2
          · next r5 hne2 =>
            obtain ⟨h1, h2, h3⟩ :=
              backtrackLoop_returns ihf heqf di (fun x hx => hx)
                { s with numCalls := s.numCalls + 1 } rfl s4 r h
            exact ⟨h1, h2, Or.inr h3⟩

theorem AllNonempty_of_supports {f : V → D} {a : List (V × List D)}
    (hsup : Supports f a) : AllNonempty a := by
  intro p hp hc
  have := hsup p hp
  rw [hc] at this
  cases this

theorem solRefinement_of_solution {s : Solver V D} {f : V → D}
    (hsol : SolutionOf s f) : SolRefinement s (fun v => [f v]) := by
  intro i j hreg x hx
  rcases List.mem_singleton.mp hx with rfl
  exact ⟨f j, List.mem_singleton.mpr rfl, hsol (i, j) (registeredB_mem_arcs hreg)⟩

theorem refines_singleton_of_supports {f : V → D} {a : List (V × List D)}
    (hsup : Supports f a) : Refines (fun v => [f v]) a := by
  intro p hp x hx
  rcases List.mem_singleton.mp hx with rfl
  exact hsup p hp

theorem supports_of_refines_singleton {f : V → D} {a : List (V × List D)}
    (href : Refines (fun v => [f v]) a) : Supports f a := by
  intro p hp
  exact href p hp (List.mem_singleton.mpr rfl)

theorem supports_dictSet_self {f : V → D} {a : List (V × List D)} {Xi : V}
    (hsup : Supports f a) : Supports f (dictSet a Xi [f Xi]) := by
  intro p hp
  rcases mem_dictSet p hp with h1 | h1
  · exact hsup p h1
  · rw [h1]
    exact List.mem_singleton.mpr rfl

theorem backtrackLoop_finds {n : Nat} {s : Solver V D} {f : V → D}
    (hsym : SymStore s) (hsn : StoreNodup s) (hsolv : SolutionOf s f)
    (ihf : ∀ (s3 : Solver V D) (a3 : List (V × List D)), s3.constraints = s.constraints →
      NodupKeys a3 → ArcKeysCover s a3 → Supports f a3 → unassignedCount a3 < n →
      ∃ s4 r, backtrack n s3 a3 = SearchOut.ok s4 (some r))
    {a : List (V × List D)} {Xi : V}
    (hnd : NodupKeys a) (hmem : Xi ∈ dictKeys a) (hcov : ArcKeysCover s a)
    (hsup : Supports f a)
    (hcnt : ∀ d : D, unassignedCount (dictSet a Xi [d]) < n) :
    ∀ (cands : List D), f Xi ∈ cands → ∀ (s6 : Solver V D), s6.constraints = s.constraints →
      ∃ s4 r, backtrackLoop (backtrack n) s6 a Xi cands = SearchOut.ok s4 (some r) := by
  intro cands
  induction cands with
  | nil =>
    intro hfin
    cases hfin
  | cons d rest ih =>
    intro hfin s6 hcon6
    have hsym6 : SymStore s6 := SymStore_congr hcon6 hsym
    have hsn6 : StoreNodup s6 := StoreNodup_congr hcon6 hsn
    have hcov6 : ArcKeysCover s6 (dictSet a Xi [d]) :=
      ArcKeysCover_congr hcon6 (ArcKeysCover_dictSet hcov Xi [d])
    have htot := ac3_total hsym6 (dictSet a Xi [d]) (get_all_arcs s6)
      (QueueReg_arcs hsn6) hcov6
    rcases hac : ac3_inference s6 (dictSet a Xi [d]) (get_all_arcs s6) with _ | ⟨fl, a2⟩
    · rw [hac] at htot
      cases htot
    have hsp := ac3_spine (s := s6) (dictSet a Xi [d]) (get_all_arcs s6)
    have hnd2 : ∀ a3 fl2, ac3_inference s6 (dictSet a Xi [d]) (get_all_arcs s6) =
        some (fl2, a3) → NodupKeys a3 := by
      intro a3 fl2 hac2
      unfold NodupKeys
      rw [(hsp fl2 a3 hac2).keys, dictKeys_dictSet_of_mem _ hmem]
      exact hnd
    by_cases hd : d = f Xi
    · subst hd
      have hrefb : Refines (fun v => [f v]) (dictSet a Xi [f Xi]) := by
        have h9 : Supports f (dictSet a Xi [f Xi]) := supports_dictSet_self hsup
        exact refines_singleton_of_supports h9
      have hsolv6 : SolutionOf s6 f := SolutionOf_congr hcon6 hsolv
      have hsup2 : Supports f a2 :=
        supports_of_refines_singleton
          (ac3_refines (solRefinement_of_solution hsolv6) (dictSet a Xi [f Xi])
            (get_all_arcs s6) fl a2 hac hrefb)
      cases fl
      · obtain ⟨v, hfv⟩ := ac3_false_empty (s := s6) (dictSet a Xi [f Xi])
          (get_all_arcs s6) a2 hac
        have := hsup2 (v, []) (dictFind?_mem hfv)
        cases this
      · rw [backtrackLoop_cons_true hac]
        have hcov2 : ArcKeysCover s a2 :=
          ArcKeysCover_congr hcon6.symm (ArcKeysCover_of_spine (hsp true a2 hac) hcov6)
        have hlt2 : unassignedCount a2 < n :=
          Nat.lt_of_le_of_lt (unassignedCount_le_of_spine (hsp true a2 hac)) (hcnt _)
        obtain ⟨s5, r5, hbt⟩ := ihf s6 a2 hcon6 (hnd2 a2 true hac) hcov2 hsup2 hlt2
        rw [hbt]
        exact ⟨s5, r5, rfl⟩
    · have hfinrest : f Xi ∈ rest := by
        rcases List.mem_cons.mp hfin with h1 | h1
        · exact absurd h1.symm hd
        · exact h1
      cases fl
      · rw [backtrackLoop_cons_false hac]
        exact ih hfinrest s6 hcon6
      · rw [backtrackLoop_cons_true hac]
        have hcov2 : ArcKeysCover s6 a2 := ArcKeysCover_of_spine (hsp true a2 hac) hcov6
        have hne2 : AllNonempty a2 :=
          ac3_true_nonempty (s := s6) (dictSet a Xi [d]) (get_all_arcs s6) a2 hac
            (AllNonempty_dictSet (AllNonempty_of_supports hsup) Xi (by simp))
        have hlt2 : unassignedCount a2 < n :=
          Nat.lt_of_le_of_lt (unassignedCount_le_of_spine (hsp true a2 hac)) (hcnt _)
        obtain ⟨s5, r5, hbt⟩ := backtrack_ok n s6 a2 hsym6 hsn6 (hnd2 a2 true hac)
          hcov2 hne2 hlt2
        rw [hbt]
        cases r5 with
        | some r => exact ⟨s5, r, rfl⟩
        | none =>
          have hcon5 : s5.constraints = s.constraints := by
            rw [(backtrack_frame n s6 a2 s5 none hbt).2.2, hcon6]
          exact ih hfinrest s5 hcon5

/-- Completeness: when a valuation inside the entry assignment satisfies
every registered constraint of a two-way mirrored store, backtrack with
sufficient fuel returns a solution. -/
theorem backtrack_finds (f : V → D) :
    ∀ (fuel : Nat) (s : Solver V D) (a : List (V × List D)),
      SymStore s → StoreNodup s → NodupKeys a → ArcKeysCover s a →
      Supports f a → SolutionOf s f → unassignedCount a < fuel →
      ∃ s4 r, backtrack fuel s a = SearchOut.ok s4 (some r) := by
  intro fuel
  induction fuel with
  | zero =>
    intro s a _ _ _ _ _ _ hlt
    cases hlt
  | succ n ih =>
    intro s a hsym hsn hnd hcov hsup hsolv hlt
    rcases hcomp : hasCompletedThe a with _ | _
    · obtain ⟨Xi, hsel⟩ :=
        select_isSome_of_incomplete hcomp (AllNonempty_of_supports hsup)
      obtain ⟨di, heqf, hlen⟩ := select_some_find hnd hsel
      have hmem : Xi ∈ dictKeys a :=
        (dictFind?_isSome_iff_mem a Xi).mp (by rw [heqf]; rfl)
      have hcnt : ∀ d : D, unassignedCount (dictSet a Xi [d]) < n := by
        intro d
        have h1 := unassignedCount_dictSet_lt d heqf hlen
        omega
      have ihf : ∀ (s3 : Solver V D) (a3 : List (V × List D)),
          s3.constraints = s.constraints →
          NodupKeys a3 → ArcKeysCover s a3 → Supports f a3 → unassignedCount a3 < n →
          ∃ s4 r, backtrack n s3 a3 = SearchOut.ok s4 (some r) := by
        intro s3 a3 hcon3 hnd3 hcov3 hsup3 hlt3
        exact ih s3 a3 (SymStore_congr hcon3 hsym) (StoreNodup_congr hcon3 hsn)
          hnd3 (ArcKeysCover_congr hcon3 hcov3) hsup3 (SolutionOf_congr hcon3 hsolv) hlt3
      have hfin : f Xi ∈ di := hsup (Xi, di) (dictFind?_mem heqf)
      obtain ⟨s4, r, hloop⟩ :=
        backtrackLoop_finds hsym hsn hsolv ihf hnd hmem hcov hsup hcnt di hfin
          { s with numCalls := s.numCalls + 1 } rfl
      simp only [backtrack, hcomp, hsel, heqf, Bool.false_eq_true, if_false]
      rw [hloop]
      exact ⟨s4, r, rfl⟩
    · exact ⟨_, a, backtrack_complete_eq n s a hcomp⟩

theorem backtracking_search_frame {s s4 : Solver V D} {r4 : Option (List (V × List D))}
    (h : backtracking_search s = SearchOut.ok s4 r4) : SameStore s4 s := by
  unfold backtracking_search at h
  split at h
  · cases h
  · exact backtrack_frame _ s _ s4 r4 h

theorem backtracking_search_counters {s s4 : Solver V D} {r4 : Option (List (V × List D))}
    (h : backtracking_search s = SearchOut.ok s4 r4) :
    s.numCalls < s4.numCalls ∧ s.numFailures ≤ s4.numFailures := by
  unfold backtracking_search at h
  split at h
  · cases h
  · have := backtrack_counters _ s _ s4 r4 h
    exact ⟨this.1, this.2.1⟩

theorem complete_find_singleton {r : List (V × List D)} {v : V} {d : List D}
    (hcomp : hasCompletedThe r = true) (hf : dictFind? r v = some d) :
    ∃ x, d = [x] := by
  have h1 := (hasCompleted_iff r).mp hcomp (v, d) (dictFind?_mem hf)
  exact List.length_eq_one.mp h1

theorem returned_consistent {s : Solver V D} (hsym : SymStore s) (hsn : StoreNodup s)
    {fuel : Nat} {a : List (V × List D)} {s4 : Solver V D} {r : List (V × List D)}
    (h : backtrack fuel s a = SearchOut.ok s4 (some r))
    (hconsa : ∀ i j, registeredB s i j = true → ConsistentArc s a i j) :
    ∀ i j, registeredB s i j = true → ConsistentArc s r i j := by
  rcases (backtrack_returns fuel s a s4 r h).2.2 with hra | ⟨s5, a0, hcon5, hac5⟩
  · rw [hra]
    exact hconsa
  · intro i j hreg
    have hreg5 : registeredB s5 i j = true := by
      rw [registeredB_congr hcon5]
      exact hreg
    have h5 := ac3_true_consistent (SymStore_congr hcon5 hsym) a0 (get_all_arcs s5)
      (QueueReg_arcs (StoreNodup_congr hcon5 hsn))
      (fun i2 j2 hreg2 => Or.inl (registeredB_mem_arcs hreg2))
      r hac5 i j hreg5
    exact ConsistentArc_congr hcon5.symm h5

theorem consistent_singletons {s : Solver V D} {r : List (V × List D)} {i j : V}
    (hcomp : hasCompletedThe r = true)
    (hconsr : ConsistentArc s r i j)
    (hi : (dictFind? r i).isSome = true) (hj : (dictFind? r j).isSome = true) :
    ∃ x y, dictFind? r i = some [x] ∧ dictFind? r j = some [y] ∧
      (x, y) ∈ pairsOf s i j := by
  rcases hfi : dictFind? r i with _ | di
  · rw [hfi] at hi
    cases hi
  rcases hfj : dictFind? r j with _ | dj
  · rw [hfj] at hj
    cases hj
  obtain ⟨x, hx⟩ := complete_find_singleton hcomp hfi
  obtain ⟨y0, hy0⟩ := complete_find_singleton hcomp hfj
  subst hx
  subst hy0
  have hxd : x ∈ domOf r i := by
    unfold domOf
    rw [hfi]
    exact List.mem_singleton.mpr rfl
  obtain ⟨y, hy, hpair⟩ := hconsr x hxd
  unfold domOf at hy
  rw [hfj] at hy
  rcases List.mem_singleton.mp hy with rfl
  exact ⟨x, y, rfl, rfl, hpair⟩

/-- Soundness and completeness of backtracking_search on a well-formed
store holding a solution: the search returns a complete assignment whose
single values satisfy every registered constraint. -/
theorem backtracking_search_solves (f : V → D) {s : Solver V D}
    (hsym : SymStore s) (hsn : StoreNodup s) (hnd : NodupKeys s.domains)
    (hcov : ArcKeysCover s s.domains)
    (hsup : Supports f s.domains) (hsolv : SolutionOf s f) :
    ∃ s4 r, backtracking_search s = SearchOut.ok s4 (some r) ∧
      hasCompletedThe r = true ∧
      ∀ i j, registeredB s i j = true →
        ∃ x y, dictFind? r i = some [x] ∧ dictFind? r j = some [y] ∧
          (x, y) ∈ pairsOf s i j := by
  have htot := ac3_total hsym s.domains (get_all_arcs s) (QueueReg_arcs hsn) hcov
  rcases hac0 : ac3_inference s s.domains (get_all_arcs s) with _ | ⟨fl0, a1⟩
  · rw [hac0] at htot
    cases htot
  have hsp1 := ac3_spine (s := s) s.domains (get_all_arcs s) fl0 a1 hac0
  have hsup1 : Supports f a1 :=
    supports_of_refines_singleton
      (ac3_refines (solRefinement_of_solution hsolv) s.domains (get_all_arcs s)
        fl0 a1 hac0 (refines_singleton_of_supports hsup))
  have hfl0 : fl0 = true := by
    cases fl0
    · obtain ⟨v, hfv⟩ := ac3_false_empty (s := s) s.domains (get_all_arcs s) a1 hac0
      have := hsup1 (v, []) (dictFind?_mem hfv)
      cases this
    · rfl
  subst hfl0
  have hnd1 : NodupKeys a1 := by
    unfold NodupKeys
    rw [hsp1.keys]
    exact hnd
  have hcov1 : ArcKeysCover s a1 := ArcKeysCover_of_spine hsp1 hcov
  obtain ⟨s4, r, hbt⟩ := backtrack_finds f (unassignedCount a1 + 1) s a1
    hsym hsn hnd1 hcov1 hsup1 hsolv (Nat.lt_succ_self _)
  have hsearch : backtracking_search s = SearchOut.ok s4 (some r) := by
    unfold backtracking_search
    rw [hac0]
    exact hbt
  have hret := backtrack_returns (unassignedCount a1 + 1) s a1 s4 r hbt
  have hconsa1 : ∀ i j, registeredB s i j = true → ConsistentArc s a1 i j :=
    fun i j hreg => ac3_true_consistent hsym s.domains (get_all_arcs s)
      (QueueReg_arcs hsn) (fun i2 j2 hreg2 => Or.inl (registeredB_mem_arcs hreg2))
      a1 hac0 i j hreg
  have hconsr := returned_consistent hsym hsn hbt hconsa1
  have hcovr : ArcKeysCover s r := ArcKeysCover_of_spine hret.2.1 hcov1
  refine ⟨s4, r, hsearch, hret.1, ?_⟩
  intro i j hreg
  have harc : ((i, j) : V × V) ∈ get_all_arcs s := registeredB_mem_arcs hreg
  exact consistent_singletons hret.1 (hconsr i j hreg) (hcovr (i, j) harc).1
    (hcovr (i, j) harc).2

theorem ac3_eq_crash2 (s : Solver V D) {a a1 : List (V × List D)} {q : List (V × V)}
    {Xi Xj : V} (hq : q.getLast? = some (Xi, Xj))
    (hr : revised s a Xi Xj = some (true, a1))
    (hfind : dictFind? a1 Xi = none) : ac3_inference s a q = none := by
  rw [ac3_inference.eq_def, hq]
  split
  · next heq => cases heq
  · next Xi2 Xj2 heq =>
    injection heq with h
    injection h with hXi hXj
    subst hXi
    subst hXj
    split
    · next heq2 => rw [hr] at heq2
    · next flag a3 heq2 =>
      rw [hr] at heq2
      injection heq2 with h2
      injection h2 with hfl ha3
      subst hfl
      subst ha3
      simp [hfind]

theorem ac3_eq_crash3 (s : Solver V D) {a a1 : List (V × List D)} {q : List (V × V)}
    {Xi Xj : V} {di1 : List D} (hq : q.getLast? = some (Xi, Xj))
    (hr : revised s a Xi Xj = some (true, a1))
    (hfind : dictFind? a1 Xi = some di1) (hlen : di1 ≠ [])
    (hn : get_all_neighboring_arcs s Xi = none) : ac3_inference s a q = none := by
  rw [ac3_inference.eq_def, hq]
  split
  · next heq => cases heq
  · next Xi2 Xj2 heq =>
    injection heq with h
    injection h with hXi hXj
    subst hXi
    subst hXj
    split
    · next heq2 => rw [hr] at heq2
    · next flag a3 heq2 =>
      rw [hr] at heq2
      injection heq2 with h2
      injection h2 with hfl ha3
      subst hfl
      subst ha3
      simp [hfind, hn, List.length_eq_zero, hlen]

/-- Fuel-driven reformulation of ac3_inference used to evaluate concrete
runs by plain reduction; some r means the run finished with outcome r
within the given number of iterations. -/
def ac3_fuel (s : Solver V D) :
    Nat → List (V × List D) → List (V × V) → Option (Option (Bool × List (V × List D)))
  | 0, _, _ => none
  | n + 1, a, q =>
    match q.getLast? with
    | none => some (some (true, a))
    | some (Xi, Xj) =>
      match revised s a Xi Xj with
      | none => some none
      | some (flag, a1) =>
        if flag then
          match dictFind? a1 Xi with
          | none => some none
          | some di1 =>
            if di1.length = 0 then some (some (false, a1))
            else
              match get_all_neighboring_arcs s Xi with
              | none => some none
              | some nbrs =>
                ac3_fuel s n a1
                  (q.dropLast ++
                    nbrs.filter (fun arc => decide (Xj ≠ arc.1 ∧ Xj ≠ arc.2)))
        else ac3_fuel s n a1 q.dropLast

theorem ac3_fuel_sound {s : Solver V D} :
    ∀ (n : Nat) (a : List (V × List D)) (q : List (V × V)) r,
      ac3_fuel s n a q = some r → ac3_inference s a q = r := by
  intro n
  induction n with
  | zero =>
    intro a q r h
    cases h
  | succ m ih =>
    intro a q r h
    simp only [ac3_fuel] at h
    split at h
    · next hq =>
      injection h with h
      rw [ac3_eq_done s hq]
      exact h
    · next Xi Xj hq =>
      split at h
      · next hr =>
        injection h with h
        rw [ac3_eq_crash1 s hq hr]
        exact h.symm ▸ rfl
      · next flag a1 hr =>
        split at h
        · next hfl =>
          subst hfl
          split at h
          · next hfind =>
            injection h with h
            rw [ac3_eq_crash2 s hq hr hfind]
            exact h.symm ▸ rfl
          · next di1 hfind =>
            split at h
            · next hlen0 =>
              injection h with h
              have hnil : di1 = [] := List.length_eq_zero.mp hlen0
              subst hnil
              rw [ac3_eq_emptied s hq hr hfind]
              exact h
            · next hlen0 =>
              split at h
              · next hn =>
                injection h with h
                rw [ac3_eq_crash3 s hq hr hfind (fun hc => hlen0 (by rw [hc]; rfl)) hn]
                exact h.symm ▸ rfl
              · next nbrs hn =>
                rw [ac3_eq_enqueue s hq hr hfind (fun hc => hlen0 (by rw [hc]; rfl)) hn]
                exact ih _ _ r h
        · next hfl =>
          have hflag : flag = false := by
            cases flag
            · rfl
            · exact absurd rfl hfl
          subst hflag
          rw [ac3_eq_skip s hq hr]
          exact ih _ _ r h

/-- The select-None KeyError of backtrack: with an incomplete assignment in
which no variable offers a choice, the lookup assignment[None] raises. -/
theorem backtrack_select_none (fuel : Nat) (s : Solver V D) {a : List (V × List D)}
    (hcomp : hasCompletedThe a = false) (hsel : selectUnassignedVariableFrom a = none) :
    backtrack (fuel + 1) s a = SearchOut.keyError := by
  simp only [backtrack, hcomp, hsel, Bool.false_eq_true, if_false]

theorem aco_elim {s s1 : Solver V D} {i j : V} {ff : D → D → Bool}
    (h : add_constraint_one_way s i j ff = some s1) :
    ∃ ci base, dictFind? s.constraints i = some ci ∧
      s1 = { s with constraints := dictSet s.constraints i (dictSet ci j (base.filter (fun vp => ff vp.1 vp.2))) } ∧
      (dictFind? ci j = some base ∨
        (dictFind? ci j = none ∧ ∃ di dj, dictFind? s.domains i = some di ∧
          dictFind? s.domains j = some dj ∧ base = get_all_possible_pairs di dj)) := by
  unfold add_constraint_one_way at h
  rcases hci : dictFind? s.constraints i with _ | ci
  · rw [hci] at h
    cases h
  rw [hci] at h
  simp only [Option.bind_eq_bind, Option.bind] at h
  rcases hcij : dictFind? ci j with _ | base
  · rw [hcij] at h
    rcases hdi : dictFind? s.domains i with _ | di
    · rw [hdi] at h
      cases h
    rw [hdi] at h
    rcases hdj : dictFind? s.domains j with _ | dj
    · rw [hdj] at h
      cases h
    rw [hdj] at h
    simp only [Option.bind_eq_bind, Option.bind] at h
    injection h with h
    exact ⟨ci, get_all_possible_pairs di dj, rfl, h.symm,
      Or.inr ⟨hcij, di, dj, rfl, rfl, rfl⟩⟩
  · rw [hcij] at h
    simp only [Option.bind_eq_bind, Option.bind] at h
    injection h with h
    exact ⟨ci, base, rfl, h.symm, Or.inl hcij⟩

theorem aco_pairs_self {s s1 : Solver V D} {i j : V} {ff : D → D → Bool}
    (h : add_constraint_one_way s i j ff = some s1) :
    ∃ base : List (D × D), registeredB s1 i j = true ∧
      pairsOf s1 i j = base.filter (fun vp => ff vp.1 vp.2) := by
  obtain ⟨ci, base, hci, hs1, hbase⟩ := aco_elim h
  refine ⟨base, ?_, ?_⟩
  · rw [hs1]
    unfold registeredB
    simp only [dictFind?_dictSet_self]
    rfl
  · rw [hs1]
    unfold pairsOf
    simp only [dictFind?_dictSet_self]
    rfl

theorem aco_neq_establishes {s s1 : Solver V D} {i j : V}
    (h : add_constraint_one_way s i j (fun x y => decide (x ≠ y)) = some s1) :
    registeredB s1 i j = true ∧ ∀ p ∈ pairsOf s1 i j, p.1 ≠ p.2 := by
  obtain ⟨base, hreg, hpairs⟩ := aco_pairs_self h
  refine ⟨hreg, ?_⟩
  intro p hp
  rw [hpairs] at hp
  have := List.of_mem_filter hp
  simpa using this

theorem aco_preserves {s s1 : Solver V D} {i2 j2 i j : V} {ff : D → D → Bool}
    (h : add_constraint_one_way s i2 j2 ff = some s1)
    (hne : i ≠ i2 ∨ j ≠ j2)
    (hreg : registeredB s i j = true) :
    registeredB s1 i j = true ∧ pairsOf s1 i j = pairsOf s i j := by
  obtain ⟨ci, base, hci, hs1, hbase⟩ := aco_elim h
  obtain ⟨ci', cij, hci', hcij'⟩ := registeredB_elim hreg
  by_cases hii : i2 = i
  · subst hii
    rw [hci] at hci'
    injection hci' with hci'
    subst hci'
    have hjj : j ≠ j2 := by
      rcases hne with h1 | h1
      · exact absurd rfl h1
      · exact h1
    rw [hs1]
    have hfne : dictFind? (dictSet ci j2 (List.filter (fun vp => ff vp.1 vp.2) base)) j =
        dictFind? ci j := dictFind?_dictSet_ne _ _ _ _ (fun hc => hjj hc.symm)
    constructor
    · unfold registeredB
      simp only [dictFind?_dictSet_self, hfne, hci, hcij']
      rfl
    · unfold pairsOf
      simp only [dictFind?_dictSet_self, hfne, hci, hcij']
  · have hfind : dictFind? s1.constraints i = dictFind? s.constraints i := by
      rw [hs1]
      exact dictFind?_dictSet_ne _ _ _ _ hii
    constructor
    · unfold registeredB
      rw [hfind]
      exact hreg
    · unfold pairsOf
      rw [hfind]

theorem alldiff_loop_preserves {s s2 : Solver V D} {l : List (V × V)} {i j : V}
    (h : add_all_different_loop s l = some s2)
    (hinv : registeredB s i j = true ∧ ∀ p ∈ pairsOf s i j, p.1 ≠ p.2) :
    registeredB s2 i j = true ∧ ∀ p ∈ pairsOf s2 i j, p.1 ≠ p.2 := by
  induction l generalizing s with
  | nil =>
    simp only [add_all_different_loop] at h
    injection h with h
    exact h ▸ hinv
  | cons e rest ihl =>
    obtain ⟨e1, e2⟩ := e
    simp only [add_all_different_loop] at h
    split at h
    · rcases hs1 : add_constraint_one_way s e1 e2 (fun x y => decide (x ≠ y)) with _ | s1
      · rw [hs1] at h
        cases h
      rw [hs1] at h
      simp only [Option.bind_eq_bind, Option.bind] at h
      by_cases hsame : e1 = i ∧ e2 = j
      · obtain ⟨h1, h2⟩ := hsame
        subst h1
        subst h2
        exact ihl h (aco_neq_establishes hs1)
      · have hne2 : i ≠ e1 ∨ j ≠ e2 := by
          by_cases h1 : e1 = i
          · exact Or.inr (fun hc => hsame ⟨h1, hc.symm⟩)
          · exact Or.inl (fun hc => h1 hc.symm)
        have hp := aco_preserves hs1 hne2 hinv.1
        refine ihl h ⟨hp.1, ?_⟩
        intro p hp2
        rw [hp.2] at hp2
        exact hinv.2 p hp2
    · exact ihl h hinv

theorem alldiff_loop_establishes {s s2 : Solver V D} {l : List (V × V)} {i j : V}
    (h : add_all_different_loop s l = some s2) (hij : i ≠ j)
    (hmem : ((i, j) : V × V) ∈ l) :
    registeredB s2 i j = true ∧ ∀ p ∈ pairsOf s2 i j, p.1 ≠ p.2 := by
  induction l generalizing s with
  | nil => cases hmem
  | cons e rest ihl =>
    obtain ⟨e1, e2⟩ := e
    simp only [add_all_different_loop] at h
    rcases List.mem_cons.mp hmem with heq | hmem2
    · injection heq with h1 h2
      subst h1
      subst h2
      rw [if_pos (by simpa using hij)] at h
      rcases hs1 : add_constraint_one_way s i j (fun x y => decide (x ≠ y)) with _ | s1
      · rw [hs1] at h
        cases h
      rw [hs1] at h
      simp only [Option.bind_eq_bind, Option.bind] at h
      exact alldiff_loop_preserves h (aco_neq_establishes hs1)
    · split at h
      · rcases hs1 : add_constraint_one_way s e1 e2 (fun x y => decide (x ≠ y)) with _ | s1
        · rw [hs1] at h
          cases h
        rw [hs1] at h
        simp only [Option.bind_eq_bind, Option.bind] at h
        exact ihl h hmem2
      · exact ihl h hmem2

theorem mem_get_all_possible_pairs {A B : Type} {a : List A} {b : List B}
    {x : A} {y : B} (hx : x ∈ a) (hy : y ∈ b) :
    ((x, y) : A × B) ∈ get_all_possible_pairs a b := by
  unfold get_all_possible_pairs
  exact List.mem_flatMap.mpr ⟨x, hx, List.mem_map.mpr ⟨y, hy, rfl⟩⟩

/-- add_all_different_constraint registers the inequality constraint in both
directions for every ordered pair of distinct listed variables, and the
stored pair lists contain only pairs of distinct values. -/
theorem alldiff_registers {s s2 : Solver V D} {var_list : List V} {i j : V}
    (h : add_all_different_constraint s var_list = some s2)
    (hi : i ∈ var_list) (hj : j ∈ var_list) (hij : i ≠ j) :
    registeredB s2 i j = true ∧ ∀ p ∈ pairsOf s2 i j, p.1 ≠ p.2 := by
  unfold add_all_different_constraint at h
  exact alldiff_loop_establishes h hij (mem_get_all_possible_pairs hi hj)

/-- The value a complete returned assignment gives a variable: the head of
its singleton list. -/
def firstVal [Inhabited D] (a : List (V × List D)) (v : V) : D :=
  ((dictFind? a v).getD []).headD default

theorem firstVal_eq [Inhabited D] {a : List (V × List D)} {v : V} {x : D}
    (h : dictFind? a v = some [x]) : firstVal a v = x := by
  unfold firstVal
  rw [h]
  rfl

/-- When the initial AC-3 pass succeeds without emptying a domain and the
CSP has no solution, backtracking_search returns None. -/
theorem backtracking_search_unsat [Inhabited D] {s : Solver V D}
    {a1 : List (V × List D)}
    (hsym : SymStore s) (hsn : StoreNodup s) (hnd : NodupKeys s.domains)
    (hcov : ArcKeysCover s s.domains) (hne : AllNonempty s.domains)
    (hac0 : ac3_inference s s.domains (get_all_arcs s) = some (true, a1))
    (hunsat : ¬∃ f : V → D, Supports f s.domains ∧ SolutionOf s f) :
    ∃ s4, backtracking_search s = SearchOut.ok s4 none := by
  have hsp1 := ac3_spine (s := s) s.domains (get_all_arcs s) true a1 hac0
  have hnd1 : NodupKeys a1 := by
    unfold NodupKeys
    rw [hsp1.keys]
    exact hnd
  have hcov1 : ArcKeysCover s a1 := ArcKeysCover_of_spine hsp1 hcov
  have hne1 : AllNonempty a1 :=
    ac3_true_nonempty (s := s) s.domains (get_all_arcs s) a1 hac0 hne
  obtain ⟨s4, r4, hbt⟩ := backtrack_ok (unassignedCount a1 + 1) s a1
    hsym hsn hnd1 hcov1 hne1 (Nat.lt_succ_self _)
  cases r4 with
  | none =>
    refine ⟨s4, ?_⟩
    unfold backtracking_search
    rw [hac0]
    exact hbt
  | some r =>
    exfalso
    have hret := backtrack_returns (unassignedCount a1 + 1) s a1 s4 r hbt
    have hconsa1 : ∀ i j, registeredB s i j = true → ConsistentArc s a1 i j :=
      fun i j hreg => ac3_true_consistent hsym s.domains (get_all_arcs s)
        (QueueReg_arcs hsn) (fun i2 j2 hreg2 => Or.inl (registeredB_mem_arcs hreg2))
        a1 hac0 i j hreg
    have hconsr := returned_consistent hsym hsn hbt hconsa1
    have hcovr : ArcKeysCover s r := ArcKeysCover_of_spine hret.2.1 hcov1
    have hsprd : SpineLe r s.domains := hret.2.1.trans hsp1
    refine hunsat ⟨firstVal r, ?_, ?_⟩
    · intro p hp
      have hfd : dictFind? s.domains p.1 = some p.2 := dictFind?_of_mem_nodup hnd hp
      obtain ⟨d2, hd2, hsub⟩ := hsprd.find_some hfd
      obtain ⟨x, hx⟩ := complete_find_singleton hret.1 hd2
      subst hx
      rw [firstVal_eq hd2]
      exact hsub.subset (List.mem_singleton.mpr rfl)
    · intro arc harc
      have hreg := mem_arcs_registeredB hsn harc
      obtain ⟨x, y, hfi, hfj, hpair⟩ := consistent_singletons hret.1
        (hconsr arc.1 arc.2 hreg) (hcovr arc harc).1 (hcovr arc harc).2
      rw [firstVal_eq hfi, firstVal_eq hfj]
      exact hpair

/-- Group soundness used for the all-different analysis: for two distinct
mutually registered variables without self arcs, one of the two arcs
between them is consistent in any assignment returned by the search. -/
theorem search_group_sound {s : Solver V D} {i j : V} (hij : i ≠ j)
    (hsn : StoreNodup s)
    (hregij : registeredB s i j = true) (hregji : registeredB s j i = true)
    (hnoii : ¬registeredB s i i = true) (hnojj : ¬registeredB s j j = true)
    {s4 : Solver V D} {r : List (V × List D)}
    (h : backtracking_search s = SearchOut.ok s4 (some r)) :
    ConsistentArc s r i j ∨ ConsistentArc s r j i := by
  have hqnoii : ((i, i) : V × V) ∉ get_all_arcs s :=
    fun hm => hnoii (mem_arcs_registeredB hsn hm)
  have hqnojj : ((j, j) : V × V) ∉ get_all_arcs s :=
    fun hm => hnojj (mem_arcs_registeredB hsn hm)
  unfold backtracking_search at h
  split at h
  · cases h
  · next fl0 a1 heq0 =>
    rcases (backtrack_returns _ s a1 s4 r h).2.2 with hra | ⟨s5, a0, hcon5, hac5⟩
    · subst hra
      cases fl0 with
      | false =>
        obtain ⟨v, hv⟩ := ac3_false_empty (s := s) s.domains (get_all_arcs s) r heq0
        obtain ⟨x, hx⟩ := complete_find_singleton (backtrack_returns _ s r s4 r h).1 hv
        cases hx
      | true =>
        exact ac3_group hij hregij hregji hnoii hnojj s.domains (get_all_arcs s)
          hqnoii hqnojj (Or.inl (registeredB_mem_arcs hregij)) r heq0
    · have hsn5 : StoreNodup s5 := StoreNodup_congr hcon5 hsn
      have hres := ac3_group (i := i) (j := j) hij
        (by rw [registeredB_congr hcon5]; exact hregij)
        (by rw [registeredB_congr hcon5]; exact hregji)
        (by rw [registeredB_congr hcon5]; exact hnoii)
        (by rw [registeredB_congr hcon5]; exact hnojj)
        a0 (get_all_arcs s5)
        (fun hm => hnoii (by rw [← registeredB_congr hcon5]; exact mem_arcs_registeredB hsn5 hm))
        (fun hm => hnojj (by rw [← registeredB_congr hcon5]; exact mem_arcs_registeredB hsn5 hm))
        (Or.inl (registeredB_mem_arcs (by rw [registeredB_congr hcon5]; exact hregij)))
        r hac5
      rcases hres with h1 | h1
      · exact Or.inl (ConsistentArc_congr hcon5.symm h1)
      · exact Or.inr (ConsistentArc_congr hcon5.symm h1)

/-- API build of the unsatisfiable two-variable store whose initial AC-3
pass empties a domain (the Python build sequence, KeyError as none). -/
def e1build : Option (Solver Nat Nat) := do
  let s := Solver.init Nat Nat
  let s := add_variable s 0 [0]
  let s := add_variable s 1 [0]
  let s ← add_constraint_one_way s 0 1 (fun x y => x != y)
  add_constraint_one_way s 1 0 (fun x y => x != y)

def e1s : Solver Nat Nat :=
  { «variables» := [0, 1], domains := [(0, [0]), (1, [0])], constraints := [(0, [(1, [])]), (1, [(0, [])])], numCalls := 0, numFailures := 0 }

/-- API build of a store with asymmetric relations on the mutual arcs. -/
def e2build : Option (Solver Nat Nat) := do
  let s := Solver.init Nat Nat
  let s := add_variable s 0 [0, 1]
  let s := add_variable s 1 [0]
  let s ← add_constraint_one_way s 0 1 (fun x y => x == 0 && y == 0)
  add_constraint_one_way s 1 0 (fun x y => x == 0 && y == 1)

def e2s : Solver Nat Nat :=
  { «variables» := [0, 1], domains := [(0, [0, 1]), (1, [0])], constraints := [(0, [(1, [(0, 0)])]), (1, [(0, [(0, 1)])])], numCalls := 0, numFailures := 0 }

/-- API build of a satisfiable store with one-way registration only. -/
def e3build : Option (Solver Nat Nat) := do
  let s := Solver.init Nat Nat
  let s := add_variable s 0 [0, 1]
  let s := add_variable s 1 [0]
  let s := add_variable s 2 [0, 1]
  let s ← add_constraint_one_way s 0 1 (fun x y => x == y)
  add_constraint_one_way s 0 2 (fun _ _ => true)

def e3s : Solver Nat Nat :=
  { «variables» := [0, 1, 2], domains := [(0, [0, 1]), (1, [0]), (2, [0, 1])], constraints := [(0, [(1, [(0, 0)]), (2, [(0, 0), (0, 1), (1, 0), (1, 1)])]), (1, []), (2, [])], numCalls := 0, numFailures := 0 }

/-- API build of a store with mirrored relations plus a self arc. -/
def e4build : Option (Solver Nat Nat) := do
  let s := Solver.init Nat Nat
  let s := add_variable s 0 [0, 1]
  let s := add_variable s 1 [5, 6]
  let s ← add_constraint_one_way s 0 1 (fun x y => (x == 0 && y == 5) || (x == 1 && y == 6))
  let s ← add_constraint_one_way s 0 0 (fun x y => x == 1 && y == 1)
  add_constraint_one_way s 1 0 (fun x y => (x == 5 && y == 0) || (x == 6 && y == 1))

def e4s : Solver Nat Nat :=
  { «variables» := [0, 1], domains := [(0, [0, 1]), (1, [5, 6])], constraints := [(0, [(1, [(0, 5), (1, 6)]), (0, [(1, 1)])]), (1, [(0, [(5, 0), (6, 1)])])], numCalls := 0, numFailures := 0 }

/-- Two variables with binary domains and no constraint yet. -/
def c8base : Solver Nat Nat :=
  add_variable (add_variable (Solver.init Nat Nat) 0 [0, 1]) 1 [0, 1]

/-- c8base after a first inequality constraint on (0, 1). -/
def c8one : Solver Nat Nat :=
  { «variables» := [0, 1], domains := [(0, [0, 1]), (1, [0, 1])], constraints := [(0, [(1, [(0, 1), (1, 0)])]), (1, [])], numCalls := 0, numFailures := 0 }

/-- c8one after a second, narrowing constraint on the same pair (0, 1). -/
def c8two : Solver Nat Nat :=
  { «variables» := [0, 1], domains := [(0, [0, 1]), (1, [0, 1])], constraints := [(0, [(1, [(0, 1)])]), (1, [])], numCalls := 0, numFailures := 0 }

/-- The two-variable all-different store. -/
def e5s : Solver Nat Nat :=
  { «variables» := [0, 1], domains := [(0, [0, 1]), (1, [0, 1])], constraints := [(0, [(1, [(0, 1), (1, 0)])]), (1, [(0, [(0, 1), (1, 0)])])], numCalls := 0, numFailures := 0 }

/-- A solution of e5s. -/
def f5 : Nat → Nat := fun v => if v = 0 then 0 else 1

/-- API build of the unsatisfiable 3-clique with two colors. -/
def e7build : Option (Solver Nat Nat) := do
  let s := Solver.init Nat Nat
  let s := add_variable s 0 [0, 1]
  let s := add_variable s 1 [0, 1]
  let s := add_variable s 2 [0, 1]
  add_all_different_constraint s [0, 1, 2]

def e7s : Solver Nat Nat :=
  { «variables» := [0, 1, 2], domains := [(0, [0, 1]), (1, [0, 1]), (2, [0, 1])], constraints := [(0, [(1, [(0, 1), (1, 0)]), (2, [(0, 1), (1, 0)])]), (1, [(0, [(0, 1), (1, 0)]), (2, [(0, 1), (1, 0)])]), (2, [(0, [(0, 1), (1, 0)]), (1, [(0, 1), (1, 0)])])], numCalls := 0, numFailures := 0 }

/-- API build of a store holding an all-different group on 0 and 1, later
narrowed, together with a self arc on variable 1. -/
def c9build : Option (Solver Nat Nat) := do
  let s := Solver.init Nat Nat
  let s := add_variable s 1 [0, 1, 2]
  let s := add_variable s 0 [0, 1]
  let s := add_variable s 2 [9]
  let s ← add_constraint_one_way s 1 2 (fun x _ => x ≤ 1)
  let s ← add_constraint_one_way s 1 1 (fun x y => (x == 0 && y == 0) || (x == 1 && y == 2) || (x == 2 && y == 2))
  let s ← add_all_different_constraint s [0, 1]
  let s ← add_constraint_one_way s 1 0 (fun x y => (x == 0 && y == 1) || (x == 1 && y == 0) || (x == 2 && y == 0))
  add_constraint_one_way s 0 1 (fun x y => (x == 0 && y == 1) || (x == 1 && y == 2))

def c9s : Solver Nat Nat :=
  { «variables» := [1, 0, 2], domains := [(1, [0, 1, 2]), (0, [0, 1]), (2, [9])], constraints := [(1, [(2, [(0, 9), (1, 9)]), (1, [(0, 0), (1, 2), (2, 2)]), (0, [(0, 1), (1, 0), (2, 0)])]), (0, [(1, [(0, 1), (1, 2)])]), (2, [])], numCalls := 0, numFailures := 0 }

/-- Complete assignment returned by the search on c9s. -/
def c9r : List (Nat × List Nat) := [(1, [0]), (0, [0]), (2, [9])]

theorem e1_ac3 : ac3_inference e1s e1s.domains (get_all_arcs e1s) = some (false, [(0, [0]), (1, [])]) :=
  ac3_fuel_sound 10 e1s.domains (get_all_arcs e1s) (some (false, [(0, [0]), (1, [])])) rfl

theorem e1_search : backtracking_search e1s = SearchOut.keyError := by
  unfold backtracking_search
  rw [e1_ac3]
  rfl

theorem e2_ac3 : ac3_inference e2s e2s.domains (get_all_arcs e2s) = some (true, [(0, [0]), (1, [0])]) :=
  ac3_fuel_sound 10 e2s.domains (get_all_arcs e2s) (some (true, [(0, [0]), (1, [0])])) rfl

theorem e3_ac3 : ac3_inference e3s e3s.domains (get_all_arcs e3s) = none :=
  ac3_fuel_sound 10 e3s.domains (get_all_arcs e3s) none rfl

theorem e3_search : backtracking_search e3s = SearchOut.keyError := by
  unfold backtracking_search
  rw [e3_ac3]

theorem e4_ac3 : ac3_inference e4s e4s.domains (get_all_arcs e4s) = some (true, [(0, [1]), (1, [5, 6])]) :=
  ac3_fuel_sound 10 e4s.domains (get_all_arcs e4s) (some (true, [(0, [1]), (1, [5, 6])])) rfl

theorem e5_ac3 : ac3_inference e5s e5s.domains (get_all_arcs e5s) = some (true, [(0, [0, 1]), (1, [0, 1])]) :=
  ac3_fuel_sound 10 e5s.domains (get_all_arcs e5s) (some (true, [(0, [0, 1]), (1, [0, 1])])) rfl

theorem e5_ac3b : ac3_inference { «variables» := e5s.variables, domains := e5s.domains, constraints := e5s.constraints, numCalls := e5s.numCalls + 1, numFailures := e5s.numFailures } (dictSet [(0, [0, 1]), (1, [0, 1])] 0 [0]) (get_all_arcs { «variables» := e5s.variables, domains := e5s.domains, constraints := e5s.constraints, numCalls := e5s.numCalls + 1, numFailures := e5s.numFailures }) = some (true, [(0, [0]), (1, [1])]) :=
  ac3_fuel_sound 10 _ _ (some (true, [(0, [0]), (1, [1])])) rfl

theorem backtrack_eq_loop {n : Nat} {s : Solver V D} {a : List (V × List D)} {Xi : V} {di : List D} (hcomp : hasCompletedThe a = false) (hsel : selectUnassignedVariableFrom a = some Xi) (heqf : dictFind? a Xi = some di) :
    backtrack (n + 1) s a = (match backtrackLoop (backtrack n) { s with numCalls := s.numCalls + 1 } a Xi di with | SearchOut.ok s2 none => SearchOut.ok { s2 with numFailures := s2.numFailures + 1 } none | r => r) := by
  simp only [backtrack, hcomp, hsel, heqf, Bool.false_eq_true, if_false]

theorem e5_search : backtracking_search e5s = SearchOut.ok { e5s with numCalls := 2 } (some [(0, [0]), (1, [1])]) := by
  unfold backtracking_search
  rw [e5_ac3]
  have h1 : backtrackLoop (backtrack 2) { «variables» := e5s.variables, domains := e5s.domains, constraints := e5s.constraints, numCalls := e5s.numCalls + 1, numFailures := e5s.numFailures } [(0, [0, 1]), (1, [0, 1])] 0 [0, 1] = SearchOut.ok { e5s with numCalls := 2 } (some [(0, [0]), (1, [1])]) := by
    rw [backtrackLoop_cons_true e5_ac3b]
    rfl
  show backtrack (2 + 1) e5s [(0, [0, 1]), (1, [0, 1])] = SearchOut.ok { e5s with numCalls := 2 } (some [(0, [0]), (1, [1])])
  rw [backtrack_eq_loop (by rfl) (by rfl) (by rfl), h1]

theorem e7_api : e7build = some e7s := rfl

theorem e7_ac3 : ac3_inference e7s e7s.domains (get_all_arcs e7s) = some (true, e7s.domains) :=
  ac3_fuel_sound 10 e7s.domains (get_all_arcs e7s) (some (true, e7s.domains)) rfl

theorem c9_ac3 : ac3_inference c9s c9s.domains (get_all_arcs c9s) = some (true, c9r) :=
  ac3_fuel_sound 20 c9s.domains (get_all_arcs c9s) (some (true, c9r)) rfl

theorem c9_search : backtracking_search c9s = SearchOut.ok { c9s with numCalls := 1 } (some c9r) := by
  unfold backtracking_search
  rw [c9_ac3]
  rfl

theorem e1_unsat : ¬∃ f : Nat → Nat, Supports f e1s.domains ∧ SolutionOf e1s f := by
  rintro ⟨f, hsup, hsol⟩
  have h01 : (f 0, f 1) ∈ ([] : List (Nat × Nat)) := hsol (0, 1) (by decide)
  exact List.not_mem_nil _ h01

theorem e7_unsat : ¬∃ f : Nat → Nat, Supports f e7s.domains ∧ SolutionOf e7s f := by
  rintro ⟨f, hsup, hsol⟩
  have h01 : (f 0, f 1) ∈ ([(0, 1), (1, 0)] : List (Nat × Nat)) := hsol (0, 1) (by decide)
  have h02 : (f 0, f 2) ∈ ([(0, 1), (1, 0)] : List (Nat × Nat)) := hsol (0, 2) (by decide)
  have h12 : (f 1, f 2) ∈ ([(0, 1), (1, 0)] : List (Nat × Nat)) := hsol (1, 2) (by decide)
  simp only [List.mem_cons, List.not_mem_nil, or_false, Prod.mk.injEq] at h01 h02 h12
  omega

/-- C1: on a well-formed store whose constraints are registered as two-way
mirrored connections between distinct variables, with duplicate-free keys,
every arc endpoint carrying a domain, and a solution inside the domains,
backtracking_search returns a complete assignment whose single values lie
in every registered constraint's stored allowed-pairs list.  (Amended:
without the two-way discipline the search can raise KeyError on a
satisfiable CSP, see the counterexample.) -/
theorem claim_C1 (f : V → D) {s : Solver V D}
    (hsym : SymStore s) (hsn : StoreNodup s) (hnd : NodupKeys s.domains)
    (hcov : ArcKeysCover s s.domains)
    (hsup : Supports f s.domains) (hsolv : SolutionOf s f) :
    ∃ s4 r, backtracking_search s = SearchOut.ok s4 (some r) ∧
      hasCompletedThe r = true ∧
      ∀ i j, registeredB s i j = true →
        ∃ x y, dictFind? r i = some [x] ∧ dictFind? r j = some [y] ∧
          (x, y) ∈ pairsOf s i j :=
  backtracking_search_solves f hsym hsn hnd hcov hsup hsolv

theorem claim_C1_witness :
    (SymStore e5s ∧ StoreNodup e5s ∧ NodupKeys e5s.domains ∧
      ArcKeysCover e5s e5s.domains ∧ Supports f5 e5s.domains ∧ SolutionOf e5s f5) ∧
    (∃ s4 r, backtracking_search e5s = SearchOut.ok s4 (some r) ∧
      hasCompletedThe r = true ∧
      ∀ i j, registeredB e5s i j = true →
        ∃ x y, dictFind? r i = some [x] ∧ dictFind? r j = some [y] ∧
          (x, y) ∈ pairsOf e5s i j) :=
  ⟨⟨by decide, by decide, by decide, by decide, by decide, by decide⟩,
    claim_C1 f5 (by decide) (by decide) (by decide) (by decide) (by decide) (by decide)⟩

theorem claim_C1_cex :
    e3build = some e3s ∧
    Supports (fun _ => 0) e3s.domains ∧ SolutionOf e3s (fun _ => 0) ∧
    backtracking_search e3s = SearchOut.keyError :=
  ⟨rfl, by decide, by decide, e3_search⟩

/-- C2: on a well-formed two-way mirrored store whose initial global AC-3
pass answers true, an unsatisfiable CSP makes backtracking_search return
None normally.  (Amended: when the initial AC-3 pass empties a domain its
boolean result is discarded and the search raises KeyError instead, see
the counterexample.) -/
theorem claim_C2 [Inhabited D] {s : Solver V D} {a1 : List (V × List D)}
    (hsym : SymStore s) (hsn : StoreNodup s) (hnd : NodupKeys s.domains)
    (hcov : ArcKeysCover s s.domains) (hne : AllNonempty s.domains)
    (hac0 : ac3_inference s s.domains (get_all_arcs s) = some (true, a1))
    (hunsat : ¬∃ f : V → D, Supports f s.domains ∧ SolutionOf s f) :
    ∃ s4, backtracking_search s = SearchOut.ok s4 none :=
  backtracking_search_unsat hsym hsn hnd hcov hne hac0 hunsat

theorem claim_C2_witness :
    (SymStore e7s ∧ StoreNodup e7s ∧ NodupKeys e7s.domains ∧
      ArcKeysCover e7s e7s.domains ∧ AllNonempty e7s.domains) ∧
    (∃ s4, backtracking_search e7s = SearchOut.ok s4 none) :=
  ⟨⟨by decide, by decide, by decide, by decide, by decide⟩,
    claim_C2 (by decide) (by decide) (by decide) (by decide) (by decide) e7_ac3 e7_unsat⟩

theorem claim_C2_cex :
    e1build = some e1s ∧
    (¬∃ f : Nat → Nat, Supports f e1s.domains ∧ SolutionOf e1s f) ∧
    ac3_inference e1s e1s.domains (get_all_arcs e1s) = some (false, [(0, [0]), (1, [])]) ∧
    backtracking_search e1s = SearchOut.keyError :=
  ⟨rfl, e1_unsat, e1_ac3, e1_search⟩

/-- C3: on a two-way mirrored store, a run of AC-3 over the full arc set
that answers true leaves every registered arc consistent; and when no
nonempty refinement of the assignment is arc-consistent, such a run cannot
answer true.  (Amended: without the two-way discipline AC-3 can answer
true on an arc-inconsistent assignment, see the counterexample.) -/
theorem claim_C3 {s : Solver V D} (hsym : SymStore s) (hsn : StoreNodup s) :
    (∀ (a a2 : List (V × List D)),
      ac3_inference s a (get_all_arcs s) = some (true, a2) →
      ∀ i j, registeredB s i j = true → ConsistentArc s a2 i j) ∧
    (∀ (a : List (V × List D)), NodupKeys a → AllNonempty a →
      (∀ b : V → List D, Refines b a → SolRefinement s b → ∃ v ∈ dictKeys a, b v = []) →
      ∀ a2, ac3_inference s a (get_all_arcs s) ≠ some (true, a2)) := by
  constructor
  · intro a a2 h i j hreg
    exact ac3_true_consistent hsym a (get_all_arcs s) (QueueReg_arcs hsn)
      (fun i2 j2 hreg2 => Or.inl (registeredB_mem_arcs hreg2)) a2 h i j hreg
  · intro a hnd hne hb a2 h
    have hsp := ac3_spine (s := s) a (get_all_arcs s) true a2 h
    have hne2 : AllNonempty a2 := ac3_true_nonempty (s := s) a (get_all_arcs s) a2 h hne
    have hcons : ∀ i j, registeredB s i j = true → ConsistentArc s a2 i j :=
      fun i j hreg => ac3_true_consistent hsym a (get_all_arcs s) (QueueReg_arcs hsn)
        (fun i2 j2 hreg2 => Or.inl (registeredB_mem_arcs hreg2)) a2 h i j hreg
    have href : Refines (domOf a2) a := by
      intro p hp
      obtain ⟨d2, hd2, hsub⟩ := hsp.find_some (dictFind?_of_mem_nodup hnd hp)
      unfold domOf
      rw [hd2]
      exact hsub.subset
    have hsr : SolRefinement s (domOf a2) := by
      intro i j hreg x hx
      exact hcons i j hreg x hx
    obtain ⟨v, hv, hbv⟩ := hb (domOf a2) href hsr
    rw [← hsp.keys] at hv
    rcases hfv : dictFind? a2 v with _ | d
    · rw [← dictFind?_isSome_iff_mem, hfv] at hv
      cases hv
    · unfold domOf at hbv
      rw [hfv] at hbv
      simp only [Option.getD_some] at hbv
      subst hbv
      exact hne2 (v, []) (dictFind?_mem hfv) rfl

theorem claim_C3_witness :
    (SymStore e5s ∧ StoreNodup e5s) ∧
    ((∀ (a a2 : List (Nat × List Nat)),
      ac3_inference e5s a (get_all_arcs e5s) = some (true, a2) →
      ∀ i j, registeredB e5s i j = true → ConsistentArc e5s a2 i j) ∧
    (∀ (a : List (Nat × List Nat)), NodupKeys a → AllNonempty a →
      (∀ b : Nat → List Nat, Refines b a → SolRefinement e5s b → ∃ v ∈ dictKeys a, b v = []) →
      ∀ a2, ac3_inference e5s a (get_all_arcs e5s) ≠ some (true, a2))) :=
  ⟨⟨by decide, by decide⟩, claim_C3 (by decide) (by decide)⟩

theorem claim_C3_cex :
    (e2build = some e2s ∧
      ac3_inference e2s e2s.domains (get_all_arcs e2s) = some (true, [(0, [0]), (1, [0])]) ∧
      registeredB e2s 1 0 = true ∧
      ¬ConsistentArc e2s [(0, [0]), (1, [0])] 1 0) ∧
    (e4build = some e4s ∧
      ac3_inference e4s e4s.domains (get_all_arcs e4s) = some (true, [(0, [1]), (1, [5, 6])]) ∧
      registeredB e4s 1 0 = true ∧
      ¬ConsistentArc e4s [(0, [1]), (1, [5, 6])] 1 0 ∧
      (∀ p ∈ pairsOf e4s 0 1, (p.2, p.1) ∈ pairsOf e4s 1 0) ∧
      (∀ p ∈ pairsOf e4s 1 0, (p.2, p.1) ∈ pairsOf e4s 0 1) ∧
      registeredB e4s 0 0 = true) :=
  ⟨⟨rfl, e2_ac3, by decide, by decide⟩,
    ⟨rfl, e4_ac3, by decide, by decide, by decide, by decide, by decide⟩⟩

/-- C4: get_all_neighboring_arcs(var) returns the arcs (i, var) for i
ranging over the keys of constraints[var], that is the arcs whose
constraint is registered from var to i; the arcs AC-3 re-enqueues after
shrinking Xi while processing (Xi, Xj) are these neighbors of Xi minus
every arc containing Xj.  (Amended: the claim's direction "from k to v" is
flipped, see the counterexample.) -/
theorem claim_C4 :
    (∀ (s : Solver V D) (v : V) (nbrs : List (V × V)),
      get_all_neighboring_arcs s v = some nbrs →
      (∀ arc ∈ nbrs, arc.2 = v ∧ registeredB s v arc.1 = true) ∧
      (∀ k, registeredB s v k = true → (k, v) ∈ nbrs)) ∧
    (∀ (s : Solver V D) (a a1 : List (V × List D)) (q : List (V × V)) (Xi Xj : V)
      (di1 : List D) (nbrs : List (V × V)),
      q.getLast? = some (Xi, Xj) →
      revised s a Xi Xj = some (true, a1) →
      dictFind? a1 Xi = some di1 → di1 ≠ [] →
      get_all_neighboring_arcs s Xi = some nbrs →
      ac3_inference s a q = ac3_inference s a1
        (q.dropLast ++ nbrs.filter (fun arc => decide (Xj ≠ arc.1 ∧ Xj ≠ arc.2)))) :=
  ⟨fun s v nbrs hn =>
    ⟨fun arc harc => nbrs_mem hn harc, fun k hreg => nbrs_mem_of_registered hn hreg⟩,
   fun s a a1 q Xi Xj di1 nbrs hq hr hfind hlen hn =>
    ac3_eq_enqueue s hq hr hfind hlen hn⟩

theorem claim_C4_witness :
    (((1, 0) : Nat × Nat).2 = 0 ∧ registeredB e2s 0 1 = true) ∧
    ((1, 0) : Nat × Nat) ∈ [((1, 0) : Nat × Nat)] ∧
    ac3_inference e2s e2s.domains [(0, 1)] = ac3_inference e2s [(0, [0]), (1, [0])]
      ([(0, 1)].dropLast ++ [((1, 0) : Nat × Nat)].filter (fun arc => decide (1 ≠ arc.1 ∧ 1 ≠ arc.2))) :=
  ⟨((claim_C4.1) e2s 0 [(1, 0)] (by rfl)).1 (1, 0) (by decide),
   ((claim_C4.1) e2s 0 [(1, 0)] (by rfl)).2 1 (by decide),
   (claim_C4.2) e2s e2s.domains [(0, [0]), (1, [0])] [(0, 1)] 0 1 [0] [(1, 0)]
     rfl rfl rfl (by decide) rfl⟩

theorem claim_C4_cex :
    get_all_neighboring_arcs e3s 2 = some [] ∧
    registeredB e3s 0 2 = true ∧
    get_all_neighboring_arcs e3s 0 = some [(1, 0), (2, 0)] ∧
    registeredB e3s 1 0 = false :=
  ⟨rfl, by decide, rfl, by decide⟩

/-- C5: backtrack is total exactly on assignments without empty domains:
an incomplete assignment of nonempty domains always yields a selected
variable with more than one value and a defined lookup, while an
incomplete assignment whose domains all hold at most one value makes
selectUnassignedVariableFrom return None and backtrack raise KeyError on
the lookup assignment[None]; the state is reachable from
backtracking_search because the initial AC-3 boolean is discarded. -/
theorem claim_C5 :
    (∀ (a : List (V × List D)), hasCompletedThe a = false → AllNonempty a →
      ∃ Xi dv, selectUnassignedVariableFrom a = some Xi ∧ (Xi, dv) ∈ a ∧
        1 < dv.length ∧ (dictFind? a Xi).isSome = true) ∧
    (∀ (a : List (V × List D)), hasCompletedThe a = false →
      (∀ p ∈ a, p.2.length ≤ 1) →
      selectUnassignedVariableFrom a = none ∧
      ∀ (fuel : Nat) (s : Solver V D), backtrack (fuel + 1) s a = SearchOut.keyError) ∧
    backtracking_search e1s = SearchOut.keyError := by
  refine ⟨?_, ?_, e1_search⟩
  · intro a hcomp hne
    obtain ⟨Xi, hsel⟩ := select_isSome_of_incomplete hcomp hne
    obtain ⟨dv, hmem, hlen⟩ := select_some_mem hsel
    refine ⟨Xi, dv, hsel, hmem, hlen, ?_⟩
    rw [dictFind?_isSome_iff_mem]
    exact List.mem_map.mpr ⟨(Xi, dv), hmem, rfl⟩
  · intro a hcomp hle
    have hsel : selectUnassignedVariableFrom a = none := (select_none_iff a).mpr hle
    exact ⟨hsel, fun fuel s => backtrack_select_none fuel s hcomp hsel⟩

theorem claim_C5_witness :
    (hasCompletedThe [((0 : Nat), [(0 : Nat), 1])] = false ∧
      AllNonempty [((0 : Nat), [(0 : Nat), 1])] ∧
      (∃ Xi dv, selectUnassignedVariableFrom [((0 : Nat), [(0 : Nat), 1])] = some Xi ∧
        (Xi, dv) ∈ [((0 : Nat), [(0 : Nat), 1])] ∧ 1 < dv.length ∧
        (dictFind? [((0 : Nat), [(0 : Nat), 1])] Xi).isSome = true)) ∧
    (hasCompletedThe [((0 : Nat), ([] : List Nat)), (1, [0])] = false ∧
      (∀ p ∈ [((0 : Nat), ([] : List Nat)), (1, [0])], p.2.length ≤ 1) ∧
      selectUnassignedVariableFrom [((0 : Nat), ([] : List Nat)), (1, [0])] = none ∧
      backtrack 1 e1s [((0 : Nat), ([] : List Nat)), (1, [0])] = SearchOut.keyError) := by
  refine ⟨⟨by decide, by decide, (claim_C5.1) _ (by decide) (by decide)⟩,
    by decide, by decide, ((claim_C5.2.1) _ (by decide) (by decide)).1, ?_⟩
  exact ((claim_C5.2.1) [((0 : Nat), ([] : List Nat)), (1, [0])] (by decide) (by decide)).2 0 e1s

/-- C6: backtracking_search leaves the Constraint Store untouched: any
normal return carries the same variables list, domains dictionary and
constraints table as the state it started from; only the counters may
differ. -/
theorem claim_C6 :
    ∀ (s s4 : Solver V D) (r4 : Option (List (V × List D))),
      backtracking_search s = SearchOut.ok s4 r4 →
      s4.variables = s.variables ∧ s4.domains = s.domains ∧
        s4.constraints = s.constraints :=
  fun s s4 r4 h => backtracking_search_frame h

theorem claim_C6_witness :
    ({ e5s with numCalls := 2 } : Solver Nat Nat).variables = e5s.variables ∧
    ({ e5s with numCalls := 2 } : Solver Nat Nat).domains = e5s.domains ∧
    ({ e5s with numCalls := 2 } : Solver Nat Nat).constraints = e5s.constraints :=
  claim_C6 e5s { e5s with numCalls := 2 } (some [(0, [0]), (1, [1])]) e5_search

/-- C7: backtrack terminates within fuel one larger than the number of
variables of the assignment when its keys are duplicate free, because the
per-candidate pinning strictly decreases the number of variables holding
more than one value and AC-3 never increases that number. -/
theorem claim_C7 :
    (∀ (fuel : Nat) (s : Solver V D) (a : List (V × List D)),
      NodupKeys a → a.length < fuel → backtrack fuel s a ≠ SearchOut.fuelOut) ∧
    (∀ (a : List (V × List D)) (Xi : V) (di : List D) (d : D),
      dictFind? a Xi = some di → 1 < di.length →
      unassignedCount (dictSet a Xi [d]) < unassignedCount a) ∧
    (∀ (s : Solver V D) (a : List (V × List D)) (q : List (V × V))
      (fl : Bool) (a2 : List (V × List D)),
      ac3_inference s a q = some (fl, a2) → unassignedCount a2 ≤ unassignedCount a) := by
  refine ⟨?_, ?_, ?_⟩
  · intro fuel s a hnd hlen
    have h1 : unassignedCount a ≤ a.length := List.countP_le_length _
    exact backtrack_fuel fuel s a hnd (Nat.lt_of_le_of_lt h1 hlen)
  · intro a Xi di d hfind hlen
    exact unassignedCount_dictSet_lt d hfind hlen
  · intro s a q fl a2 h
    exact unassignedCount_le_of_spine (ac3_spine (s := s) a q fl a2 h)

theorem claim_C7_witness :
    (NodupKeys e1s.domains ∧ e1s.domains.length < 3 ∧
      backtrack 3 e1s e1s.domains ≠ SearchOut.fuelOut) ∧
    (dictFind? e5s.domains 0 = some [0, 1] ∧ 1 < ([0, 1] : List Nat).length ∧
      unassignedCount (dictSet e5s.domains 0 [(0 : Nat)]) < unassignedCount e5s.domains) ∧
    unassignedCount [((0 : Nat), [(0 : Nat), 1]), (1, [0, 1])] ≤ unassignedCount e5s.domains :=
  ⟨⟨by decide, by decide, (claim_C7.1) 3 e1s e1s.domains (by decide) (by decide)⟩,
    ⟨rfl, by decide, (claim_C7.2.1) e5s.domains 0 [0, 1] 0 rfl (by decide)⟩,
    (claim_C7.2.2) e5s e5s.domains (get_all_arcs e5s) true [(0, [0, 1]), (1, [0, 1])] e5_ac3⟩

/-- C8: the first registration of an ordered pair stores the cross product
of the two variables' stored domains filtered by the predicate, and every
later registration of the same pair filters the previously stored pair
list by the new predicate, so the stored list only ever narrows. -/
theorem claim_C8 {s s2 : Solver V D} {i j : V} {ff : D → D → Bool}
    (h : add_constraint_one_way s i j ff = some s2) :
    (registeredB s i j = false →
      ∃ di dj, dictFind? s.domains i = some di ∧ dictFind? s.domains j = some dj ∧
        pairsOf s2 i j = (get_all_possible_pairs di dj).filter (fun vp => ff vp.1 vp.2)) ∧
    (registeredB s i j = true →
      pairsOf s2 i j = (pairsOf s i j).filter (fun vp => ff vp.1 vp.2)) := by
  obtain ⟨ci, base, hci, hs1, hbase⟩ := aco_elim h
  have hp : pairsOf s2 i j = base.filter (fun vp => ff vp.1 vp.2) := by
    rw [hs1]
    unfold pairsOf
    simp only [dictFind?_dictSet_self]
    rfl
  constructor
  · intro hreg
    rcases hbase with hsome | ⟨hnone, di, dj, hdi, hdj, hbase2⟩
    · rw [registeredB_of hci hsome] at hreg
      cases hreg
    · exact ⟨di, dj, hdi, hdj, by rw [hp, hbase2]⟩
  · intro hreg
    rcases hbase with hsome | ⟨hnone, _⟩
    · rw [hp, pairsOf_eq hci hsome]
    · obtain ⟨ci', cij, hci', hcij'⟩ := registeredB_elim hreg
      rw [hci] at hci'
      injection hci' with hci'
      subst hci'
      rw [hnone] at hcij'
      cases hcij'

theorem claim_C8_witness :
    (∃ di dj, dictFind? c8base.domains 0 = some di ∧ dictFind? c8base.domains 1 = some dj ∧
      pairsOf c8one 0 1 = (get_all_possible_pairs di dj).filter (fun vp => decide (vp.1 ≠ vp.2))) ∧
    pairsOf c8two 0 1 = (pairsOf c8one 0 1).filter (fun vp => vp.1 == 0) :=
  ⟨(@claim_C8 Nat Nat _ _ c8base c8one 0 1 (fun x y => decide (x ≠ y)) (by rfl)).1 (by decide),
   (@claim_C8 Nat Nat _ _ c8one c8two 0 1 (fun x y => x == 0) (by rfl)).2 (by decide)⟩

/-- C9: add_all_different_constraint registers, for every ordered pair of
distinct listed variables, a both-ways constraint whose stored pairs are
all distinct-valued; and in any assignment returned by backtracking_search
two such variables receive distinct values provided neither carries a
registered self arc.  (Amended: a registered self arc on a group variable
can make the search return equal values, see the counterexample.) -/
theorem claim_C9 :
    (∀ (s s2 : Solver V D) (var_list : List V) (i j : V),
      add_all_different_constraint s var_list = some s2 →
      i ∈ var_list → j ∈ var_list → i ≠ j →
      registeredB s2 i j = true ∧ ∀ p ∈ pairsOf s2 i j, p.1 ≠ p.2) ∧
    (∀ (s : Solver V D) (i j : V) (s4 : Solver V D) (r : List (V × List D)) (x y : D),
      i ≠ j → StoreNodup s →
      registeredB s i j = true → registeredB s j i = true →
      registeredB s i i = false → registeredB s j j = false →
      (∀ p ∈ pairsOf s i j, p.1 ≠ p.2) → (∀ p ∈ pairsOf s j i, p.1 ≠ p.2) →
      backtracking_search s = SearchOut.ok s4 (some r) →
      dictFind? r i = some [x] → dictFind? r j = some [y] → x ≠ y) := by
  constructor
  · intro s s2 var_list i j h hi hj hij
    exact alldiff_registers h hi hj hij
  · intro s i j s4 r x y hij hsn hregij hregji hnoii hnojj hsubij hsubji hsearch hfi hfj
    have hres := search_group_sound hij hsn hregij hregji
      (fun hc => by rw [hnoii] at hc; cases hc)
      (fun hc => by rw [hnojj] at hc; cases hc) hsearch
    rcases hres with hcons | hcons
    · have hx : x ∈ domOf r i := by
        unfold domOf
        rw [hfi]
        exact List.mem_singleton.mpr rfl
      obtain ⟨y2, hy2, hpair⟩ := hcons x hx
      unfold domOf at hy2
      rw [hfj] at hy2
      rcases List.mem_singleton.mp hy2 with rfl
      exact hsubij _ hpair
    · have hy : y ∈ domOf r j := by
        unfold domOf
        rw [hfj]
        exact List.mem_singleton.mpr rfl
      obtain ⟨x2, hx2, hpair⟩ := hcons y hy
      unfold domOf at hx2
      rw [hfi] at hx2
      rcases List.mem_singleton.mp hx2 with rfl
      exact (hsubji _ hpair).symm

theorem claim_C9_witness :
    (registeredB e5s 0 1 = true ∧ ∀ p ∈ pairsOf e5s 0 1, p.1 ≠ p.2) ∧ (0 : Nat) ≠ 1 :=
  ⟨(claim_C9.1) c8base e5s [0, 1] 0 1 (by rfl) (by decide) (by decide) (by decide),
   (claim_C9.2) e5s 0 1 { e5s with numCalls := 2 } [(0, [0]), (1, [1])] 0 1
     (by decide) (by decide) (by decide) (by decide) (by decide) (by decide)
     (by decide) (by decide) e5_search rfl rfl⟩

theorem claim_C9_cex :
    c9build = some c9s ∧
    registeredB c9s 0 1 = true ∧ registeredB c9s 1 0 = true ∧
    (∀ p ∈ pairsOf c9s 0 1, p.1 ≠ p.2) ∧ (∀ p ∈ pairsOf c9s 1 0, p.1 ≠ p.2) ∧
    registeredB c9s 1 1 = true ∧
    backtracking_search c9s = SearchOut.ok { c9s with numCalls := 1 } (some c9r) ∧
    dictFind? c9r 0 = some [0] ∧ dictFind? c9r 1 = some [0] :=
  ⟨rfl, by decide, by decide, by decide, by decide, by decide, c9_search, rfl, rfl⟩

/-- C10: both counters start at zero, never decrease across a run of
backtracking_search, the call counter grows by exactly one on an entry
that finds the assignment complete, and an exhausted candidate loop grows
the failure counter. -/
theorem claim_C10 :
    ((Solver.init V D).numCalls = 0 ∧ (Solver.init V D).numFailures = 0) ∧
    (∀ (s s4 : Solver V D) (r4 : Option (List (V × List D))),
      backtracking_search s = SearchOut.ok s4 r4 →
      s.numCalls < s4.numCalls ∧ s.numFailures ≤ s4.numFailures) ∧
    (∀ (fuel : Nat) (s : Solver V D) (a : List (V × List D)),
      hasCompletedThe a = true →
      backtrack (fuel + 1) s a = SearchOut.ok { s with numCalls := s.numCalls + 1 } (some a)) ∧
    (∀ (fuel : Nat) (s : Solver V D) (a : List (V × List D)) (s4 : Solver V D),
      backtrack fuel s a = SearchOut.ok s4 none → s.numFailures < s4.numFailures) :=
  ⟨⟨rfl, rfl⟩,
   fun s s4 r4 h => backtracking_search_counters h,
   fun fuel s a hcomp => backtrack_complete_eq fuel s a hcomp,
   fun fuel s a s4 h => (backtrack_counters fuel s a s4 none h).2.2 rfl⟩

theorem claim_C10_witness :
    (e5s.numCalls < ({ e5s with numCalls := 2 } : Solver Nat Nat).numCalls ∧
      e5s.numFailures ≤ ({ e5s with numCalls := 2 } : Solver Nat Nat).numFailures) ∧
    backtrack 1 e1s [((0 : Nat), [(0 : Nat)])] =
      SearchOut.ok { e1s with numCalls := e1s.numCalls + 1 } (some [(0, [0])]) :=
  ⟨(claim_C10.2.1) e5s { e5s with numCalls := 2 } (some [(0, [0]), (1, [1])]) e5_search,
   (claim_C10.2.2.1) 0 e1s [(0, [0])] (by decide)⟩
